import Mathlib

/-!
# Verification of the SecureHTTP envelope protocol (`SecureHTTP.py`)

A shallow embedding of the hybrid-encryption envelope protocol: JSON-like
payload values, Python-`dict` operations as insertion-ordered association
lists, the canonicalization/signing algorithm (`sign`, `_percent_encode`,
`conversionComma`), the symmetric-cipher wrappers (`AESEncrypt`,
`AESDecrypt`), and the client/server envelope builders
(`clientEncrypt`/`clientDecrypt`/`serverDecrypt`/`serverEncrypt`).

External cryptographic and parsing collaborators (the block cipher and
base64 transport encoding, the RSA library, the MD5 digest, `json.loads`)
are not code of this module; they are modelled as an explicit parameter
record `Ext`, and theorems assume their defining input/output laws only at
the values where they are invoked.
-/

namespace SecureHTTP

/-- Values of the JSON-representable Python data handled by the protocol:
`None`, `bool`, `int`, `str`, `list`, `dict`. -/
inductive JVal where
  | jnull
  | jbool (b : Bool)
  | jint (n : Int)
  | jstr (s : String)
  | jarr (es : List JVal)
  | jobj (fs : List (String × JVal))

/-- A Python `dict` with string keys, as an insertion-ordered association list. -/
abbrev Dict := List (String × JVal)

/-- Well-formedness of a `dict` image: keys are pairwise distinct. -/
abbrev WF (d : Dict) : Prop := (d.map Prod.fst).Nodup

/-! ## Python string comparison (code-point lexicographic) -/

/-- Lexicographic strict comparison of character lists by code point,
matching Python's `str` ordering. -/
def charsLt : List Char → List Char → Bool
  | [], [] => false
  | [], _ :: _ => true
  | _ :: _, [] => false
  | a :: as, b :: bs =>
    if a.toNat < b.toNat then true
    else if b.toNat < a.toNat then false
    else charsLt as bs

/-- Python `a < b` on strings. -/
def strLt (a b : String) : Bool := charsLt a.data b.data

/-- Python `a <= b` on strings (total order used by `sorted`). -/
def keyLe (a b : String) : Bool := !(strLt b a)

/-- The comparison Python `sorted(items, key=lambda d: d[0])` sorts by. -/
def pairLe {α : Type} (a b : String × α) : Bool := keyLe a.1 b.1

/-- Stable insertion into a sorted list: the new element goes before the
first element it compares `le` to. -/
def sinsert {α : Type} (le : α → α → Bool) (x : α) : List α → List α
  | [] => [x]
  | y :: t => if le x y then x :: y :: t else y :: sinsert le x t

/-- Python `sorted`: a stable sort by the comparison `le`. -/
def pySorted {α : Type} (le : α → α → Bool) : List α → List α
  | [] => []
  | x :: t => sinsert le x (pySorted le t)

/-! ## Python dict operations on association lists -/

/-- `d[k]` lookup (first entry with the key). -/
def dget (d : Dict) (k : String) : Option JVal :=
  (d.find? (fun p => p.1 == k)).map (·.2)

/-- `k in d`. -/
def hasKey (d : Dict) (k : String) : Bool :=
  (d.find? (fun p => p.1 == k)).isSome

/-- `d[k] = v`: replace the value in place if the key exists, else append. -/
def dset (d : Dict) (k : String) (v : JVal) : Dict :=
  if hasKey d k then d.map (fun p => if p.1 == k then (k, v) else p)
  else d ++ [(k, v)]

/-- `d.pop(k)`: the removed value and the remaining dict, or `none` (KeyError). -/
def dpop (d : Dict) (k : String) : Option (JVal × Dict) :=
  match dget d k with
  | some v => some (v, d.eraseP (fun p => p.1 == k))
  | none => none

/-! ## Python whitespace handling and `conversionComma` -/

/-- Python `\s` on ASCII: space, tab, newline, carriage return, vertical tab, form feed. -/
def pyWs (c : Char) : Bool :=
  c = ' ' || c = '\t' || c = '\n' || c = '\r' || c.toNat = 11 || c.toNat = 12

def trimLeftPy (l : List Char) : List Char := l.dropWhile pyWs

def trimRightPy (l : List Char) : List Char := (l.reverse.dropWhile pyWs).reverse

/-- Split a character list at every comma (the split points of `re.split`). -/
def splitOnComma : List Char → List (List Char)
  | [] => [[]]
  | c :: t =>
    match splitOnComma t with
    | [] => if c = ',' then [[], []] else [[c]]
    | p :: ps => if c = ',' then [] :: p :: ps else (c :: p) :: ps

/-- `conversionComma`: `re.split(r"\s*,\s*", s)` keeping only truthy pieces.
Splitting on `\s*,\s*` equals splitting on commas and then trimming
whitespace adjacent to each split point (not at the ends of the string). -/
def conversionComma (s : String) : List String :=
  if s = "" then []
  else
    let ps := splitOnComma s.data
    let n := ps.length
    let trimmed := ps.mapIdx (fun i p =>
      let p1 := if 0 < i then trimLeftPy p else p
      if i + 1 < n then trimRightPy p1 else p1)
    (trimmed.map String.mk).filter (fun x => x ≠ "")

/-! ## UTF-8 encoding and decoding (`str.encode` / `bytes.decode`) -/

/-- UTF-8 encoding of one code point. -/
def encCharNat (n : Nat) : List Nat :=
  if n < 0x80 then [n]
  else if n < 0x800 then [0xC0 + n / 0x40, 0x80 + n % 0x40]
  else if n < 0x10000 then [0xE0 + n / 0x1000, 0x80 + (n / 0x40) % 0x40, 0x80 + n % 0x40]
  else [0xF0 + n / 0x40000, 0x80 + (n / 0x1000) % 0x40, 0x80 + (n / 0x40) % 0x40,
        0x80 + n % 0x40]

/-- `str.encode("utf-8")`. -/
def utf8Encode (s : String) : List Nat := s.data.flatMap (fun c => encCharNat c.toNat)

/-- A UTF-8 continuation byte. -/
def contB (b : Nat) : Bool := 0x80 ≤ b && b < 0xC0

/-- Decode one UTF-8 sequence whose leading byte is `b`: the decoded
character and the bytes that follow the sequence, or `none` on a
malformed sequence (bad leading byte, missing or malformed continuation
bytes, over-long encoding, surrogate or out-of-range code point). -/
def decodeOne (b : Nat) (t : List Nat) : Option (Char × List Nat) :=
  if b < 0x80 then some (Char.ofNat b, t)
  else if b < 0xC2 then none
  else if b < 0xE0 then
    match t with
    | b1 :: t' =>
      if contB b1 then some (Char.ofNat ((b - 0xC0) * 0x40 + (b1 - 0x80)), t') else none
    | [] => none
  else if b < 0xF0 then
    match t with
    | b1 :: b2 :: t' =>
      if contB b1 && contB b2 then
        let n := (b - 0xE0) * 0x1000 + (b1 - 0x80) * 0x40 + (b2 - 0x80)
        if n < 0x800 || (0xD800 ≤ n && n < 0xE000) then none
        else some (Char.ofNat n, t')
      else none
    | _ => none
  else if b < 0xF5 then
    match t with
    | b1 :: b2 :: b3 :: t' =>
      if contB b1 && contB b2 && contB b3 then
        let n := (b - 0xF0) * 0x40000 + (b1 - 0x80) * 0x1000 + (b2 - 0x80) * 0x40
                 + (b3 - 0x80)
        if n < 0x10000 || 0x110000 ≤ n then none
        else some (Char.ofNat n, t')
      else none
    | _ => none
  else none

/-- Decode a whole byte list; the fuel (instantiated with the list's
length, which bounds the number of decoded characters) keeps the
recursion structural. -/
def utf8DecAux : Nat → List Nat → Option (List Char)
  | _, [] => some []
  | 0, _ :: _ => none
  | f + 1, b :: t =>
    match decodeOne b t with
    | some (c, rest) => (utf8DecAux f rest).map (fun cs => c :: cs)
    | none => none

/-- `bytes.decode()`: strict UTF-8 decoding; `none` models `UnicodeDecodeError`. -/
def utf8Dec (l : List Nat) : Option (List Char) := utf8DecAux l.length l

/-! ## JSON serialization (`json.dumps`) -/

/-- Decimal digits of a natural number, most significant first (the
characters of Python `str(n)`); the fuel argument keeps recursion
structural and is instantiated with a sufficient bound. -/
def natDigitsAux : Nat → Nat → List Char → List Char
  | 0, _, acc => acc
  | f + 1, n, acc =>
    if n < 10 then Char.ofNat (48 + n) :: acc
    else natDigitsAux f (n / 10) (Char.ofNat (48 + n % 10) :: acc)

/-- Python `str` of a natural number. -/
def natRepr (n : Nat) : String := String.mk (natDigitsAux (n + 1) n [])

/-- Python `str(int)`: decimal digits, `-`-prefixed when negative. -/
def intRepr : Int → String
  | .ofNat m => natRepr m
  | .negSucc m => "-" ++ natRepr (m + 1)

/-- Lower-case hexadecimal digit. -/
def hexL (n : Nat) : Char := Char.ofNat (if n < 10 then 48 + n else 87 + n)

/-- Upper-case hexadecimal digit. -/
def hexU (n : Nat) : Char := Char.ofNat (if n < 10 then 48 + n else 55 + n)

/-- Four lower-case hex digits, as in `json`'s `\uXXXX` escapes. -/
def hex4 (n : Nat) : List Char :=
  [hexL (n / 4096 % 16), hexL (n / 256 % 16), hexL (n / 16 % 16), hexL (n % 16)]

/-- `json` string escaping with `ensure_ascii=True`: short escapes for
`"`, `\`, and common controls, `\uXXXX` (surrogate pairs above the BMP)
for everything outside printable ASCII. -/
def escChar (c : Char) : List Char :=
  if c = '"' then ['\\', '"']
  else if c = '\\' then ['\\', '\\']
  else if c = '\n' then ['\\', 'n']
  else if c = '\t' then ['\\', 't']
  else if c = '\r' then ['\\', 'r']
  else if c.toNat = 8 then ['\\', 'b']
  else if c.toNat = 12 then ['\\', 'f']
  else if 0x20 ≤ c.toNat ∧ c.toNat ≤ 0x7E then [c]
  else if c.toNat < 0x10000 then '\\' :: 'u' :: hex4 c.toNat
  else
    let m := c.toNat - 0x10000
    ('\\' :: 'u' :: hex4 (0xD800 + m / 0x400)) ++ ('\\' :: 'u' :: hex4 (0xDC00 + m % 0x400))

/-- A JSON string literal: quotes around the escaped contents. -/
def jstring (s : String) : String :=
  "\"" ++ String.mk (s.data.flatMap escChar) ++ "\""

/-- Join pieces with a separator (`sep.join(pieces)`). -/
def joinSep (sep : String) : List String → String
  | [] => ""
  | s :: t => t.foldl (fun acc x => acc ++ sep ++ x) s

mutual

/-- `json.dumps(v, sort_keys=so, separators=(isep, ksep))` with
`ensure_ascii=True` (the default). -/
def dumpJVal (so : Bool) (isep ksep : String) : JVal → String
  | .jnull => "null"
  | .jbool b => cond b "true" "false"
  | .jint n => intRepr n
  | .jstr s => jstring s
  | .jarr es => "[" ++ joinSep isep (dumpArr so isep ksep es) ++ "]"
  | .jobj fs =>
    let ps := dumpFields so isep ksep fs
    let ps' := if so then pySorted pairLe ps else ps
    "\x7b" ++ joinSep isep (ps'.map (fun q => jstring q.1 ++ ksep ++ q.2)) ++ "\x7d"

/-- Serialize the elements of a JSON array in order. -/
def dumpArr (so : Bool) (isep ksep : String) : List JVal → List String
  | [] => []
  | v :: t => dumpJVal so isep ksep v :: dumpArr so isep ksep t

/-- Serialize the members of a JSON object, keeping keys with the
serialized values. -/
def dumpFields (so : Bool) (isep ksep : String) : List (String × JVal) → List (String × String)
  | [] => []
  | (k, v) :: t => (k, dumpJVal so isep ksep v) :: dumpFields so isep ksep t

end

/-- Compact serialization used for envelopes:
`json.dumps(x, separators=(',', ':'))`. -/
def dumpCompact (v : JVal) : String := dumpJVal false "," ":" v

/-! ## Percent encoding (`urllib quote` and `_percent_encode`) -/

/-- The characters `urllib.request.quote` never escapes (safe set empty):
ASCII letters, digits, `_`, `.`, `-`, `~`. -/
def unreservedByte (b : Nat) : Bool :=
  (65 ≤ b && b ≤ 90) || (97 ≤ b && b ≤ 122) || (48 ≤ b && b ≤ 57) ||
  b = 95 || b = 46 || b = 45 || b = 126

/-- How `quote` renders one byte. -/
def quotePiece (b : Nat) : List Char :=
  if unreservedByte b then [Char.ofNat b] else ['%', hexU (b / 16), hexU (b % 16)]

/-- `urllib.request.quote(bytes, safe='')`. -/
def quoteBytes (bs : List Nat) : String := String.mk (bs.flatMap quotePiece)

/-- `str.replace` on character lists: replace non-overlapping occurrences
of `c0 :: ps` left to right. The fuel argument (instantiated with the
list's length, which bounds the number of steps) keeps the recursion
structural. -/
def pyReplaceAux (c0 : Char) (ps rep : List Char) : Nat → List Char → List Char
  | _, [] => []
  | 0, l => l
  | fuel + 1, c :: t =>
    if (c0 :: ps).isPrefixOf (c :: t) then
      rep ++ pyReplaceAux c0 ps rep fuel (t.drop ps.length)
    else c :: pyReplaceAux c0 ps rep fuel t

/-- Python `s.replace(pat, rep)` (for the non-empty patterns used here). -/
def pyReplace (s pat rep : String) : String :=
  match pat.data with
  | [] => s
  | c0 :: ps => String.mk (pyReplaceAux c0 ps rep.data s.data.length s.data)

/-- `_percent_encode`: canonical JSON serialization with recursively sorted
keys (default separators), then `quote` over the UTF-8 bytes with an empty
safe set, then the three textual replacements. -/
def percentEncode (v : JVal) : String :=
  pyReplace (pyReplace (pyReplace
    (quoteBytes (utf8Encode (dumpJVal true ", " ": " v))) "+" "%20") "*" "%2A") "%7E" "~"

/-! ## Exceptions -/

/-- Python exceptions raised by the module (with the messages the code uses). -/
inductive PyExc where
  | typeErr (msg : String)
  | keyErr (key : String)
  | attrErr
  | valueErr (msg : String)
  | signErr (msg : String)
  | aesErr (msg : String)
  | jsonErr
  deriving DecidableEq, Repr

/-! ## External collaborators -/

/-- The external libraries the module calls (the spec's "external
collaborators": block cipher with base64 transport encoding, RSA, the MD5
digest, `json.loads`). Their input/output laws are assumed per theorem at
the values where they are used. -/
structure Ext where
  md5 : String → String
  cipherEnc : String → List Nat → String
  cipherDec : String → String → List Nat
  rsaEnc : String → String → String
  rsaDec : String → String → String
  jsonLoads : String → Option JVal

/-! ## Signing (`sign`) -/

/-- `data.update(meta)`: fold the metadata entries into the payload copy,
metadata winning on key collisions. -/
def mergeMeta (data meta : Dict) : Dict :=
  meta.foldl (fun acc p => dset acc p.1 p.2) data

/-- The canonicalized query string: entries sorted by key (Python `sorted`
on the first component), each appending its `'%s=%s&'`-formatted piece. -/
def canonicalize (data : Dict) : String :=
  let sorted := pySorted pairLe data
  sorted.foldl
    (fun acc p => acc ++ (percentEncode (.jstr p.1) ++ "=" ++ percentEncode p.2 ++ "&")) ""

/-- The `for k in signIndex: data[k] = parameters[k]` loop; a missing key
is a `KeyError`. -/
def selectKeys (parameters : Dict) (ks : List String) : Except PyExc Dict :=
  ks.foldlM (fun acc k =>
    match dget parameters k with
    | some v => .ok (dset acc k v)
    | none => .error (.keyErr k)) ([] : Dict)

/-- The signature over already-selected data: merge the metadata, sort,
concatenate, digest. -/
def signData (E : Ext) (data meta : Dict) : String :=
  E.md5 (canonicalize (mergeMeta data meta))

/-- `sign(parameters, meta)`: resolve `SignatureIndex` (`False` → no
signature, truthy string → selected subset, anything else → whole
payload), then digest the canonicalized merged data. -/
def sign (E : Ext) (parameters meta : Dict) : Except PyExc (Option String) :=
  match (dget meta "SignatureIndex").getD .jnull with
  | .jbool false => .ok none
  | .jstr s =>
    if s = "" then .ok (some (signData E parameters meta))
    else do
      let data ← selectKeys parameters (conversionComma s)
      .ok (some (signData E data meta))
  | _ => .ok (some (signData E parameters meta))

/-! ## Symmetric cipher wrappers (`AESEncrypt` / `AESDecrypt`) -/

/-- A dynamically-typed Python argument: either text or something that is
not a string (so `isinstance(x, str)` fails, or `x` is falsy non-text). -/
inductive PyParam where
  | ofStr (s : String)
  | nonStr
  deriving DecidableEq

/-- The message of the `AESError` both wrappers raise on bad parameters. -/
def aesMsg : String :=
  "Parameter error: key or ciphertext type is not valid, or key length is not valid"

/-- PKCS5/7-style padding: extend to a multiple of the 16-byte block with
the pad length repeated as the pad character. -/
def aesPad (s : String) : String :=
  let padlen := 16 - s.length % 16
  s ++ String.mk (List.replicate padlen (Char.ofNat padlen))

/-- The characters the decrypt-side regex
`[\x00-\x08\x0b-\x0c\x0e-\x1f\n\r\t]` removes. -/
def isCtlStrip (c : Char) : Bool :=
  c.toNat ≤ 8 || c.toNat = 11 || c.toNat = 12 || (14 ≤ c.toNat && c.toNat ≤ 31) ||
  c.toNat = 10 || c.toNat = 13 || c.toNat = 9

/-- Apply the control-character-removing regex substitution. -/
def stripCtl (s : String) : String :=
  String.mk (s.data.filter (fun c => !(isCtlStrip c)))

/-- `AESEncrypt(key, plaintext)`: guard the parameters, pad, UTF-8 encode,
encrypt (the external cipher produces the base64 text). -/
def AESEncrypt (E : Ext) (key plaintext : PyParam) : Except PyExc String :=
  match key, plaintext with
  | .ofStr k, .ofStr p =>
    if k ≠ "" ∧ k.length % 16 = 0 ∧ p ≠ "" then
      .ok (E.cipherEnc k (utf8Encode (aesPad p)))
    else .error (.aesErr aesMsg)
  | _, _ => .error (.aesErr aesMsg)

/-- `AESDecrypt(key, ciphertext)`: guard the parameters, re-pad the base64
text with `'='` times `len % 4`, decrypt, then decode; a decode failure
returns the sentinel `False` (here `none`), a success strips control
characters. -/
def AESDecrypt (E : Ext) (key ciphertext : PyParam) : Except PyExc (Option String) :=
  match key, ciphertext with
  | .ofStr k, .ofStr c =>
    if k ≠ "" ∧ k.length % 16 = 0 ∧ c ≠ "" then
      let c2 := c ++ String.mk (List.replicate (c.length % 4) '=')
      match utf8Dec (E.cipherDec k c2) with
      | none => .ok none
      | some cs => .ok (some (stripCtl (String.mk cs)))
    else .error (.aesErr aesMsg)
  | _, _ => .error (.aesErr aesMsg)

/-! ## Envelopes and the communication classes -/

/-- The request envelope `{key: RSAKey, value: JsonAESEncryptedData}`. -/
structure ReqEnv where
  key : String
  value : String
  deriving DecidableEq, Repr

/-- The response envelope `{data: AESEncryptedResponseData}`. -/
structure RespEnv where
  data : String
  deriving DecidableEq, Repr

/-- Server-side state: the private key and the `AESKey` slot, initialized
to `None` and overwritten by each `serverDecrypt`. -/
structure SState where
  AESKey : Option String
  deriving DecidableEq, Repr

/-- A payload argument as passed from Python: a dict or something else. -/
inductive PyArg where
  | dict (d : Dict)
  | nonDict

/-- The metadata dict both builders construct (in keyword order):
`dict(Timestamp=…, SignatureVersion="v1", SignatureMethod="MD5",
SignatureIndex=signIndex)`. -/
def mkMeta (ts : String) (si : JVal) : Dict :=
  [("Timestamp", .jstr ts), ("SignatureVersion", .jstr "v1"),
   ("SignatureMethod", .jstr "MD5"), ("SignatureIndex", si)]

/-- Python's `==` between the transmitted `Signature` value and the result
of `sign` (`None` or a string); values of different types compare unequal. -/
def sigMatches (sv : JVal) (r : Option String) : Bool :=
  match sv, r with
  | .jnull, none => true
  | .jstr s, some t => s == t
  | _, _ => false

/-- The `Signature` value injected into the metadata (`None` or the digest). -/
def jvalOfSig : Option String → JVal
  | none => .jnull
  | some s => .jstr s

/-- The payload actually serialized and encrypted: metadata built, signed,
the signature inserted into the metadata, the metadata attached under
`__meta__`. Shared verbatim by `clientEncrypt` and `serverEncrypt`. -/
def buildPayload (E : Ext) (ts : String) (si : JVal) (d : Dict) : Except PyExc Dict := do
  let meta := mkMeta ts si
  let sig ← sign E d meta
  let meta2 := dset meta "Signature" (jvalOfSig sig)
  .ok (dset d "__meta__" (.jobj meta2))

/-- `clientEncrypt(post, signIndex)`: reject falsy/non-dict posts, wrap the
ephemeral key under the RSA public key, build and sign the payload,
serialize compactly and AES-encrypt it. `ts` is the timestamp the
(external) clock returned. -/
def clientEncrypt (E : Ext) (pub aesKey ts : String) (post : PyArg) (si : JVal) :
    Except PyExc ReqEnv :=
  match post with
  | .dict d =>
    if d.isEmpty then .error (.typeErr "Invalid post data")
    else do
      let RSAKey := E.rsaEnc pub aesKey
      let postData ← buildPayload E ts si d
      let ct ← AESEncrypt E (.ofStr aesKey) (.ofStr (dumpCompact (.jobj postData)))
      .ok ⟨RSAKey, ct⟩
  | .nonDict => .error (.typeErr "Invalid post data")

/-- Decrypt an incoming payload and verify its signature: AES-decrypt,
`json.loads`, pop `__meta__`, pop `Signature`, re-sign and compare.
Shared verbatim by `clientDecrypt` and `serverDecrypt`. -/
def decryptVerify (E : Ext) (aesKey ct : String) : Except PyExc Dict := do
  let dec ← AESDecrypt E (.ofStr aesKey) (.ofStr ct)
  match dec with
  | none => .error (.typeErr "the JSON object must be str, bytes or bytearray, not bool")
  | some m =>
    match E.jsonLoads m with
    | none => .error .jsonErr
    | some (.jobj postData) =>
      match dpop postData "__meta__" with
      | none => .error (.keyErr "__meta__")
      | some (.jobj metaData, postData') =>
        match dpop metaData "Signature" with
        | none => .error (.keyErr "Signature")
        | some (sv, metaData') => do
          let r ← sign E postData' metaData'
          if sigMatches sv r then .ok postData'
          else .error (.signErr "Signature verification failed")
      | some (_, _) => .error .attrErr
    | some _ => .error .attrErr

/-- `clientDecrypt(encryptedRespData)`: decrypt `data` with the client's
ephemeral key and verify. -/
def clientDecrypt (E : Ext) (aesKey : String) (env : RespEnv) : Except PyExc Dict :=
  decryptVerify E aesKey env.data

/-- `serverDecrypt(encryptedPostData)`: recover the ephemeral key from
`key` with the RSA private key, store it in the `AESKey` slot, then
decrypt `value` and verify. The state is updated even when a later step
fails. -/
def serverDecrypt (E : Ext) (priv : String) (env : ReqEnv) :
    Except PyExc Dict × SState :=
  let k := E.rsaDec priv env.key
  (decryptVerify E k env.value, ⟨some k⟩)

/-- `serverEncrypt(resp, signIndex)`: require a truthy stored `AESKey`,
reject falsy/non-dict responses, then build, sign, serialize and encrypt
exactly as the client does — without any asymmetric wrap. -/
def serverEncrypt (E : Ext) (st : SState) (ts : String) (resp : PyArg) (si : JVal) :
    Except PyExc RespEnv :=
  match st.AESKey with
  | some k =>
    if k = "" then .error (.valueErr "Invalid AESKey")
    else
      match resp with
      | .dict d =>
        if d.isEmpty then .error (.typeErr "Invalid resp data")
        else do
          let respData ← buildPayload E ts si d
          let ct ← AESEncrypt E (.ofStr k) (.ofStr (dumpCompact (.jobj respData)))
          .ok ⟨ct⟩
      | .nonDict => .error (.typeErr "Invalid resp data")
  | none => .error (.valueErr "Invalid AESKey")

/-! ## Order lemmas for the Python string comparison -/

theorem charNat_inj {a b : Char} (h : a.toNat = b.toNat) : a = b :=
  Char.ext (UInt32.ext h)

theorem charsLt_self : ∀ l : List Char, charsLt l l = false := by
  intro l
  induction l with
  | nil => rfl
  | cons c t ih => simp [charsLt, ih]

theorem charsLt_eq_of_not : ∀ {a b : List Char},
    charsLt a b = false → charsLt b a = false → a = b := by
  intro a
  induction a with
  | nil =>
    intro b hab _
    cases b with
    | nil => rfl
    | cons y ys => simp [charsLt] at hab
  | cons x xs ih =>
    intro b hab hba
    cases b with
    | nil => simp [charsLt] at hba
    | cons y ys =>
      simp only [charsLt] at hab hba
      by_cases h1 : x.toNat < y.toNat
      · simp [h1] at hab
      · by_cases h2 : y.toNat < x.toNat
        · simp [h1, h2] at hba
        · have hx : x = y := charNat_inj (by omega)
          subst hx
          simp [h1, h2] at hab hba
          rw [ih hab hba]

theorem charsLt_trans : ∀ {a b c : List Char},
    charsLt a b = true → charsLt b c = true → charsLt a c = true := by
  intro a
  induction a with
  | nil =>
    intro b c hab hbc
    cases b with
    | nil => simp [charsLt] at hab
    | cons y ys =>
      cases c with
      | nil => simp [charsLt] at hbc
      | cons z zs => simp [charsLt]
  | cons x xs ih =>
    intro b c hab hbc
    cases b with
    | nil => simp [charsLt] at hab
    | cons y ys =>
      cases c with
      | nil => simp [charsLt] at hbc
      | cons z zs =>
        simp only [charsLt] at hab hbc ⊢
        by_cases h1 : x.toNat < y.toNat <;> by_cases h2 : y.toNat < z.toNat
        · rw [if_pos (by omega : x.toNat < z.toNat)]
        · rw [if_neg h2] at hbc
          by_cases h3 : z.toNat < y.toNat
          · rw [if_pos h3] at hbc; exact absurd hbc (by simp)
          · rw [if_neg h3] at hbc
            have : y = z := charNat_inj (by omega)
            subst this
            rw [if_pos h1]
        · rw [if_neg h1] at hab
          by_cases h3 : y.toNat < x.toNat
          · rw [if_pos h3] at hab; exact absurd hab (by simp)
          · rw [if_neg h3] at hab
            have : x = y := charNat_inj (by omega)
            subst this
            rw [if_pos h2]
        · rw [if_neg h1] at hab
          rw [if_neg h2] at hbc
          by_cases h3 : y.toNat < x.toNat
          · rw [if_pos h3] at hab; exact absurd hab (by simp)
          · by_cases h4 : z.toNat < y.toNat
            · rw [if_pos h4] at hbc; exact absurd hbc (by simp)
            · rw [if_neg h3] at hab
              rw [if_neg h4] at hbc
              have hxy : x = y := charNat_inj (by omega)
              have hyz : y = z := charNat_inj (by omega)
              subst hxy; subst hyz
              rw [if_neg h1, if_neg h3]
              exact ih hab hbc

theorem charsLt_asymm {a b : List Char} (h : charsLt a b = true) : charsLt b a = false := by
  cases hh : charsLt b a with
  | false => rfl
  | true =>
    have := charsLt_trans h hh
    rw [charsLt_self] at this
    exact Bool.noConfusion this

theorem strLt_irrefl (a : String) : strLt a a = false := charsLt_self a.data

theorem strLt_asymm {a b : String} (h : strLt a b = true) : strLt b a = false :=
  charsLt_asymm h

theorem strLt_trans {a b c : String} (h1 : strLt a b = true) (h2 : strLt b c = true) :
    strLt a c = true := charsLt_trans h1 h2

theorem str_eq_of_not_lt {a b : String} (h1 : strLt a b = false) (h2 : strLt b a = false) :
    a = b := String.ext (charsLt_eq_of_not h1 h2)

theorem keyLe_total (a b : String) : (keyLe a b || keyLe b a) = true := by
  unfold keyLe
  cases h : strLt b a
  · simp
  · simp [strLt_asymm h]

theorem keyLe_trans {a b c : String} (h1 : keyLe a b = true) (h2 : keyLe b c = true) :
    keyLe a c = true := by
  unfold keyLe at *
  simp only [Bool.not_eq_true'] at h1 h2
  simp only [Bool.not_eq_true']
  cases hca : strLt c a with
  | false => rfl
  | true =>
    exfalso
    cases hbc : strLt b c with
    | true =>
      have hba : strLt b a = true := strLt_trans hbc hca
      rw [h1] at hba
      exact Bool.noConfusion hba
    | false =>
      have hbeq : b = c := str_eq_of_not_lt hbc h2
      subst hbeq
      rw [hca] at h1
      exact Bool.noConfusion h1

theorem strLt_of_keyLe_ne {a b : String} (h : keyLe a b = true) (hne : a ≠ b) :
    strLt a b = true := by
  unfold keyLe at h
  simp only [Bool.not_eq_true'] at h
  cases hh : strLt a b
  · exact absurd (str_eq_of_not_lt hh h) hne
  · rfl

/-! ## Dict lemmas -/

theorem hasKey_eq_isSome (d : Dict) (k : String) : hasKey d k = (dget d k).isSome := by
  simp [dget, hasKey]

theorem hasKey_iff_mem (d : Dict) (k : String) :
    hasKey d k = true ↔ k ∈ d.map Prod.fst := by
  simp [hasKey, List.find?_isSome, List.mem_map, beq_iff_eq]

theorem dget_mem_keys {d : Dict} {k : String} {v : JVal} (h : dget d k = some v) :
    k ∈ d.map Prod.fst := by
  rw [← hasKey_iff_mem, hasKey_eq_isSome, h]
  rfl

theorem dget_eq_none_of_not_hasKey {d : Dict} {k : String} (h : hasKey d k = false) :
    dget d k = none := by
  rw [hasKey_eq_isSome] at h
  cases hd : dget d k
  · rfl
  · rw [hd] at h; exact absurd h (by simp)

theorem dget_append (l₁ l₂ : Dict) (k : String) :
    dget (l₁ ++ l₂) k = (dget l₁ k).or (dget l₂ k) := by
  simp only [dget, List.find?_append]
  cases List.find? (fun p => p.1 == k) l₁ <;> simp

theorem dget_cons (p : String × JVal) (t : Dict) (k : String) :
    dget (p :: t) k = if p.1 = k then some p.2 else dget t k := by
  simp only [dget, List.find?_cons]
  by_cases h : p.1 = k
  · simp [h]
  · simp [h, beq_false_of_ne h]

theorem dget_map_set (l : Dict) (k : String) (v : JVal) (j : String) :
    dget (l.map fun p => if p.1 == k then (k, v) else p) j =
      if j = k then (dget l k).map (fun _ => v) else dget l j := by
  induction l with
  | nil => by_cases h : j = k <;> simp [dget, h]
  | cons p t ih =>
    by_cases hpk : p.1 = k <;> by_cases hjk : j = k <;> by_cases hpj : p.1 = j <;>
      simp_all [dget_cons]

theorem dget_dset (d : Dict) (k : String) (v : JVal) (j : String) :
    dget (dset d k v) j = if j = k then some v else dget d j := by
  unfold dset
  by_cases h : hasKey d k
  · rw [if_pos h, dget_map_set]
    by_cases hjk : j = k
    · rw [if_pos hjk, if_pos hjk]
      rw [hasKey_eq_isSome] at h
      cases hd : dget d k
      · rw [hd] at h; exact absurd h (by simp)
      · simp
    · rw [if_neg hjk, if_neg hjk]
  · rw [if_neg h, dget_append]
    by_cases hjk : j = k
    · subst hjk
      rw [dget_eq_none_of_not_hasKey (Bool.of_not_eq_true h)]
      simp [dget_cons, dget]
    · rw [if_neg hjk]
      have : dget [(k, v)] j = none := by
        rw [dget_cons, if_neg (fun h => hjk h.symm)]
        rfl
      rw [this]
      cases dget d j <;> rfl

theorem keys_dset (d : Dict) (k : String) (v : JVal) :
    (dset d k v).map Prod.fst =
      if hasKey d k then d.map Prod.fst else d.map Prod.fst ++ [k] := by
  unfold dset
  by_cases h : hasKey d k
  · rw [if_pos h, if_pos h, List.map_map]
    apply List.map_congr_left
    intro p _
    by_cases hp : p.1 = k
    · simp [hp]
    · simp [hp, beq_false_of_ne hp]
  · rw [if_neg h, if_neg h]
    simp

theorem WF_dset {d : Dict} (k : String) (v : JVal) (h : WF d) : WF (dset d k v) := by
  unfold WF
  rw [keys_dset]
  by_cases hk : hasKey d k
  · rw [if_pos hk]; exact h
  · rw [if_neg hk]
    rw [List.nodup_append]
    refine ⟨h, List.nodup_singleton k, ?_⟩
    intro a ha hb
    simp only [List.mem_singleton] at hb
    subst hb
    rw [← hasKey_iff_mem] at ha
    rw [ha] at hk
    exact hk rfl

theorem WF_perm {l₁ l₂ : Dict} (h : l₁.Perm l₂) (w : WF l₁) : WF l₂ :=
  (h.map Prod.fst).nodup w

theorem WF_cons {p : String × JVal} {t : Dict} (h : WF (p :: t)) : WF t := by
  unfold WF at *
  simp only [List.map_cons, List.nodup_cons] at h
  exact h.2

theorem dget_perm {l₁ l₂ : Dict} (h : l₁.Perm l₂) :
    WF l₁ → ∀ k, dget l₁ k = dget l₂ k := by
  induction h with
  | nil => intro _ k; rfl
  | cons x _ ih =>
    intro w k
    rw [dget_cons, dget_cons]
    by_cases hx : x.1 = k
    · simp [hx]
    · rw [if_neg hx, if_neg hx, ih (WF_cons w) k]
  | swap x y l =>
    intro w k
    have hxy : y.1 ≠ x.1 := by
      unfold WF at w
      simp only [List.map_cons, List.nodup_cons, List.mem_cons] at w
      exact fun he => w.1 (Or.inl he)
    rw [dget_cons, dget_cons, dget_cons, dget_cons]
    by_cases hy : y.1 = k
    · have hx : ¬x.1 = k := fun he => hxy (hy.trans he.symm)
      rw [if_pos hy, if_neg hx, if_pos hy]
    · by_cases hx : x.1 = k
      · rw [if_neg hy, if_pos hx, if_pos hx]
      · rw [if_neg hy, if_neg hx, if_neg hx, if_neg hy]
  | trans h₁ _ ih₁ ih₂ =>
    intro w k
    rw [ih₁ w k, ih₂ (WF_perm h₁ w) k]

/-! ## Uniqueness of sorted association lists with equal lookups -/

/-- Strictly increasing keys. -/
def StrictKeys (l : Dict) : Prop := l.Pairwise (fun p q => strLt p.1 q.1 = true)

theorem dget_eq_none_of_lt {l : Dict} {k : String}
    (h : ∀ p ∈ l, strLt k p.1 = true) : dget l k = none := by
  unfold dget
  rw [List.find?_eq_none.mpr]
  · rfl
  · intro x hx
    simp only [beq_iff_eq]
    intro he
    have := h x hx
    rw [he, strLt_irrefl] at this
    exact Bool.false_ne_true this

theorem eq_of_strict_sorted_lookup : ∀ l₁ l₂ : Dict, StrictKeys l₁ → StrictKeys l₂ →
    (∀ k, dget l₁ k = dget l₂ k) → l₁ = l₂ := by
  intro l₁
  induction l₁ with
  | nil =>
    intro l₂ _ _ h
    cases l₂ with
    | nil => rfl
    | cons q u =>
      have := h q.1
      rw [dget_cons, if_pos rfl] at this
      simp [dget] at this
  | cons p t ih =>
    intro l₂ s₁ s₂ h
    cases l₂ with
    | nil =>
      have := h p.1
      rw [dget_cons, if_pos rfl] at this
      simp [dget] at this
    | cons q u =>
      have hs₁ := List.pairwise_cons.mp s₁
      have hs₂ := List.pairwise_cons.mp s₂
      have hpq : p.1 = q.1 := by
        by_contra hne
        have h₁ : dget (q :: u) p.1 = some p.2 := by
          rw [← h p.1, dget_cons, if_pos rfl]
        have h₂ : dget (p :: t) q.1 = some q.2 := by
          rw [h q.1, dget_cons, if_pos rfl]
        rw [dget_cons, if_neg (fun he => hne he.symm)] at h₁
        rw [dget_cons, if_neg hne] at h₂
        have m₁ := dget_mem_keys h₁
        have m₂ := dget_mem_keys h₂
        simp only [List.mem_map] at m₁ m₂
        obtain ⟨x, hx, hxe⟩ := m₁
        obtain ⟨y, hy, hye⟩ := m₂
        have lqp : strLt q.1 p.1 = true := by
          have := hs₂.1 x hx
          rw [hxe] at this
          exact this
        have lpq : strLt p.1 q.1 = true := by
          have := hs₁.1 y hy
          rw [hye] at this
          exact this
        rw [strLt_asymm lpq] at lqp
        exact Bool.false_ne_true lqp
      have hv : p.2 = q.2 := by
        have := h p.1
        rw [dget_cons, if_pos rfl, dget_cons, if_pos hpq.symm] at this
        exact Option.some.inj this
      have htail : ∀ k, dget t k = dget u k := by
        intro k
        by_cases hk : k = p.1
        · subst hk
          rw [dget_eq_none_of_lt hs₁.1, dget_eq_none_of_lt]
          intro r hr
          rw [hpq]
          exact hs₂.1 r hr
        · have := h k
          rw [dget_cons, if_neg (fun he => hk he.symm),
              dget_cons, if_neg (fun he => hk (hpq ▸ he.symm))] at this
          exact this
      have hpqv : p = q := Prod.ext hpq hv
      rw [hpqv, ih u hs₁.2 hs₂.2 htail]

/-! ## The sort used by `sign` and canonical-string machinery -/

theorem pairLe_trans {α : Type} : ∀ a b c : String × α,
    pairLe a b = true → pairLe b c = true → pairLe a c = true :=
  fun _ _ _ h1 h2 => keyLe_trans h1 h2

theorem pairLe_total {α : Type} : ∀ a b : String × α, (pairLe a b || pairLe b a) = true :=
  fun a b => keyLe_total a.1 b.1

theorem sinsert_perm {α : Type} (le : α → α → Bool) (x : α) :
    ∀ l, (sinsert le x l).Perm (x :: l) := by
  intro l
  induction l with
  | nil => exact List.Perm.refl _
  | cons y t ih =>
    unfold sinsert
    by_cases h : le x y = true
    · rw [if_pos h]
    · rw [if_neg h]
      exact (ih.cons y).trans (List.Perm.swap x y t)

theorem pySorted_perm {α : Type} (le : α → α → Bool) : ∀ l, (pySorted le l).Perm l := by
  intro l
  induction l with
  | nil => exact List.Perm.refl _
  | cons x t ih =>
    unfold pySorted
    exact (sinsert_perm le x (pySorted le t)).trans (ih.cons x)

theorem sinsert_sorted {α : Type} {le : α → α → Bool}
    (htrans : ∀ a b c, le a b = true → le b c = true → le a c = true)
    (htotal : ∀ a b, (le a b || le b a) = true)
    (x : α) : ∀ l, l.Pairwise (fun a b => le a b = true) →
      (sinsert le x l).Pairwise (fun a b => le a b = true) := by
  intro l
  induction l with
  | nil => intro _; simp [sinsert]
  | cons y t ih =>
    intro h
    have hy := List.pairwise_cons.mp h
    unfold sinsert
    by_cases hxy : le x y = true
    · rw [if_pos hxy]
      refine List.pairwise_cons.mpr ⟨?_, h⟩
      intro b hb
      cases List.mem_cons.mp hb with
      | inl he => exact he ▸ hxy
      | inr ht => exact htrans x y b hxy (hy.1 b ht)
    · rw [if_neg hxy]
      have hyx : le y x = true := by
        have ht2 := htotal x y
        cases hh : le x y
        · rw [hh] at ht2; simpa using ht2
        · exact absurd hh hxy
      refine List.pairwise_cons.mpr ⟨?_, ih hy.2⟩
      intro b hb
      have hmem := (sinsert_perm le x t).mem_iff.mp hb
      cases List.mem_cons.mp hmem with
      | inl he => exact he ▸ hyx
      | inr ht2 => exact hy.1 b ht2

theorem pySorted_sorted {α : Type} {le : α → α → Bool}
    (htrans : ∀ a b c, le a b = true → le b c = true → le a c = true)
    (htotal : ∀ a b, (le a b || le b a) = true) :
    ∀ l, (pySorted le l).Pairwise (fun a b => le a b = true) := by
  intro l
  induction l with
  | nil => simp [pySorted]
  | cons x t ih =>
    unfold pySorted
    exact sinsert_sorted htrans htotal x (pySorted le t) ih

theorem strictKeys_pySorted {d : Dict} (w : WF d) :
    StrictKeys (pySorted pairLe d) := by
  have hsorted := @pySorted_sorted (String × JVal) pairLe pairLe_trans pairLe_total d
  have hperm : (pySorted pairLe d).Perm d := pySorted_perm pairLe d
  have hnd : WF (pySorted pairLe d) := WF_perm hperm.symm w
  have hne : (pySorted pairLe d).Pairwise (fun p q => p.1 ≠ q.1) := by
    have h2 : ((pySorted pairLe d).map Prod.fst).Pairwise (· ≠ ·) := hnd
    rwa [List.pairwise_map] at h2
  exact (hsorted.and hne).imp (fun h => strLt_of_keyLe_ne h.1 h.2)

theorem sortPairs_eq {d₁ d₂ : Dict} (w₁ : WF d₁) (w₂ : WF d₂)
    (h : ∀ k, dget d₁ k = dget d₂ k) :
    pySorted pairLe d₁ = pySorted pairLe d₂ := by
  apply eq_of_strict_sorted_lookup _ _ (strictKeys_pySorted w₁) (strictKeys_pySorted w₂)
  intro k
  have p₁ := @pySorted_perm (String × JVal) pairLe d₁
  have p₂ := @pySorted_perm (String × JVal) pairLe d₂
  rw [dget_perm p₁ (WF_perm p₁.symm w₁) k, dget_perm p₂ (WF_perm p₂.symm w₂) k]
  exact h k

/-! ## Lookup characterization of the metadata merge -/

theorem mergeMeta_cons (D : Dict) (p : String × JVal) (t : Dict) :
    mergeMeta D (p :: t) = mergeMeta (dset D p.1 p.2) t := rfl

theorem WF_mergeMeta (M : Dict) : ∀ {D : Dict}, WF D → WF (mergeMeta D M) := by
  induction M with
  | nil => intro D w; exact w
  | cons p t ih =>
    intro D w
    rw [mergeMeta_cons]
    exact ih (WF_dset p.1 p.2 w)

theorem dget_mergeMeta_congr (M : Dict) : ∀ {D D' : Dict},
    (∀ k, dget D k = dget D' k) → ∀ k, dget (mergeMeta D M) k = dget (mergeMeta D' M) k := by
  induction M with
  | nil => intro D D' h k; exact h k
  | cons p t ih =>
    intro D D' h k
    rw [mergeMeta_cons, mergeMeta_cons]
    apply ih
    intro j
    rw [dget_dset, dget_dset]
    by_cases hj : j = p.1
    · rw [if_pos hj, if_pos hj]
    · rw [if_neg hj, if_neg hj]; exact h j

theorem dget_mergeMeta : ∀ {M : Dict}, WF M → ∀ (D : Dict) (k : String),
    dget (mergeMeta D M) k = (dget M k).or (dget D k) := by
  intro M
  induction M with
  | nil => intro _ D k; simp [mergeMeta, dget]
  | cons p t ih =>
    intro wM D k
    rw [mergeMeta_cons, ih (WF_cons wM) (dset D p.1 p.2) k, dget_cons, dget_dset]
    by_cases hk : p.1 = k
    · have hkt : dget t k = none := by
        apply dget_eq_none_of_not_hasKey
        cases hh : hasKey t k
        · rfl
        · exfalso
          have := (hasKey_iff_mem t k).mp hh
          unfold WF at wM
          simp only [List.map_cons, List.nodup_cons] at wM
          exact wM.1 (hk ▸ this)
      rw [hkt, if_pos hk, if_pos hk.symm]
      rfl
    · rw [if_neg hk, if_neg (fun h => hk h.symm)]

/-! ## The canonical signing string as the specification words it -/

/-- The specification's merge: the selected payload entries whose keys the
metadata does not override, together with all metadata entries. -/
def specMerge (d m : Dict) : Dict :=
  d.filter (fun p => !(hasKey m p.1)) ++ m

/-- Concatenation of rendered pieces. -/
def concatAll : List String → String
  | [] => ""
  | s :: t => s ++ concatAll t

/-- The canonical string as described by the specification: merge the
selected data with the metadata (metadata wins), sort by key in
byte/code-point order, and concatenate `key=value&` for every pair,
including the trailing `&`. -/
def specCanonicalString (d m : Dict) : String :=
  concatAll ((pySorted pairLe (specMerge d m)).map
    (fun p => percentEncode (.jstr p.1) ++ "=" ++ percentEncode p.2 ++ "&"))

theorem dget_filter_key (f : String → Bool) :
    ∀ (d : Dict) (k : String), dget (d.filter (fun p => f p.1)) k =
      if f k then dget d k else none := by
  intro d
  induction d with
  | nil => intro k; by_cases h : f k <;> simp [dget, h]
  | cons p t ih =>
    intro k
    by_cases hp : f p.1
    · rw [List.filter_cons_of_pos (by simpa using hp), dget_cons, dget_cons]
      by_cases hpk : p.1 = k
      · rw [if_pos hpk, if_pos hpk, if_pos (hpk ▸ hp)]
      · rw [if_neg hpk, if_neg hpk, ih]
    · rw [List.filter_cons_of_neg (by simpa using hp), dget_cons, ih]
      by_cases hpk : p.1 = k
      · rw [if_pos hpk, if_neg (hpk ▸ hp)]
        by_cases hfk : f k
        · exact absurd (hpk ▸ hfk) hp
        · rw [if_neg hfk]
      · rw [if_neg hpk]

theorem WF_specMerge {d m : Dict} (wd : WF d) (wm : WF m) : WF (specMerge d m) := by
  unfold WF specMerge
  rw [List.map_append, List.nodup_append]
  refine ⟨?_, wm, ?_⟩
  · exact ((List.filter_sublist d).map Prod.fst).nodup wd
  · intro a ha hb
    simp only [List.mem_map] at ha
    obtain ⟨p, hp, hpa⟩ := ha
    have := List.of_mem_filter hp
    simp only [Bool.not_eq_true'] at this
    rw [hpa] at this
    rw [← hasKey_iff_mem] at hb
    rw [hb] at this
    exact Bool.noConfusion this

theorem dget_specMerge {d m : Dict} (k : String) :
    dget (specMerge d m) k = (dget m k).or (dget d k) := by
  unfold specMerge
  rw [dget_append, dget_filter_key (fun j => !(hasKey m j)) d k]
  by_cases h : hasKey m k
  · rw [if_neg (by simpa using h)]
    rw [hasKey_eq_isSome] at h
    cases hm : dget m k
    · rw [hm] at h; exact absurd h (by simp)
    · rfl
  · rw [if_pos (by simpa using h),
      dget_eq_none_of_not_hasKey (Bool.of_not_eq_true h)]
    cases dget d k <;> rfl

theorem foldl_append_concatAll (f : (String × JVal) → String) :
    ∀ (l : List (String × JVal)) (init : String),
      l.foldl (fun acc p => acc ++ f p) init = init ++ concatAll (l.map f) := by
  intro l
  induction l with
  | nil => intro init; simp [concatAll]
  | cons p t ih =>
    intro init
    rw [List.foldl_cons, ih, List.map_cons]
    show init ++ f p ++ concatAll (t.map f) = init ++ (f p ++ concatAll (t.map f))
    rw [String.append_assoc]

theorem canonicalize_eq_spec {D M : Dict} (wD : WF D) (wM : WF M) :
    canonicalize (mergeMeta D M) = specCanonicalString D M := by
  unfold canonicalize specCanonicalString
  rw [sortPairs_eq (WF_mergeMeta M wD) (WF_specMerge wD wM)
    (fun k => by rw [dget_mergeMeta wM D k, dget_specMerge k]),
    foldl_append_concatAll]
  rfl

theorem signData_eq_spec (E : Ext) {D M : Dict} (wD : WF D) (wM : WF M) :
    signData E D M = E.md5 (specCanonicalString D M) :=
  congrArg E.md5 (canonicalize_eq_spec wD wM)

theorem signData_congr (E : Ext) {D D' : Dict} (M : Dict) (wD : WF D) (wD' : WF D')
    (h : ∀ k, dget D k = dget D' k) : signData E D M = signData E D' M := by
  unfold signData canonicalize
  rw [sortPairs_eq (WF_mergeMeta M wD) (WF_mergeMeta M wD') (dget_mergeMeta_congr M h)]

/-! ## `selectKeys` lemmas -/

theorem selectKeys_step (P : Dict) (acc : Dict) (k : String) (ks : List String) :
    (k :: ks).foldlM (fun acc k =>
        match dget P k with
        | some v => Except.ok (dset acc k v)
        | none => Except.error (PyExc.keyErr k)) acc =
      match dget P k with
      | some v => ks.foldlM (fun acc k =>
          match dget P k with
          | some v => Except.ok (dset acc k v)
          | none => Except.error (PyExc.keyErr k)) (dset acc k v)
      | none => Except.error (PyExc.keyErr k) := by
  rw [List.foldlM_cons]
  cases dget P k
  · rfl
  · rfl

theorem selectKeys_aux_wf (P : Dict) : ∀ (ks : List String) (acc D : Dict), WF acc →
    ks.foldlM (fun acc k =>
        match dget P k with
        | some v => Except.ok (dset acc k v)
        | none => Except.error (PyExc.keyErr k)) acc = .ok D → WF D := by
  intro ks
  induction ks with
  | nil =>
    intro acc D w h
    simp only [List.foldlM_nil] at h
    cases h
    exact w
  | cons k t ih =>
    intro acc D w h
    rw [selectKeys_step] at h
    cases hk : dget P k with
    | none => rw [hk] at h; exact absurd h (by simp)
    | some v =>
      rw [hk] at h
      exact ih (dset acc k v) D (WF_dset k v w) h

theorem WF_selectKeys {P : Dict} {ks : List String} {D : Dict}
    (h : selectKeys P ks = .ok D) : WF D :=
  selectKeys_aux_wf P ks [] D List.nodup_nil h

theorem selectKeys_aux_dget (P : Dict) : ∀ (ks : List String) (acc D : Dict),
    ks.foldlM (fun acc k =>
        match dget P k with
        | some v => Except.ok (dset acc k v)
        | none => Except.error (PyExc.keyErr k)) acc = .ok D →
      ∀ j, dget D j = if j ∈ ks then dget P j else dget acc j := by
  intro ks
  induction ks with
  | nil =>
    intro acc D h j
    simp only [List.foldlM_nil] at h
    cases h
    simp
  | cons k t ih =>
    intro acc D h j
    rw [selectKeys_step] at h
    cases hk : dget P k with
    | none => rw [hk] at h; exact absurd h (by simp)
    | some v =>
      rw [hk] at h
      rw [ih (dset acc k v) D h j]
      by_cases hjt : j ∈ t
      · rw [if_pos hjt, if_pos (List.mem_cons_of_mem k hjt)]
      · rw [if_neg hjt, dget_dset]
        by_cases hjk : j = k
        · rw [if_pos hjk, if_pos (hjk ▸ List.mem_cons_self k t), hjk, hk]
        · rw [if_neg hjk, if_neg (by
            intro hm
            cases List.mem_cons.mp hm with
            | inl he => exact hjk he
            | inr ht => exact hjt ht)]

theorem dget_selectKeys {P : Dict} {ks : List String} {D : Dict}
    (h : selectKeys P ks = .ok D) :
    ∀ j, dget D j = if j ∈ ks then dget P j else none := by
  intro j
  rw [selectKeys_aux_dget P ks [] D h j]
  by_cases hm : j ∈ ks
  · rw [if_pos hm, if_pos hm]
  · rw [if_neg hm, if_neg hm]; rfl

theorem selectKeys_ok_of_mem {P : Dict} : ∀ {ks : List String},
    (∀ k ∈ ks, hasKey P k = true) → ∀ acc : Dict, ∃ D,
      ks.foldlM (fun acc k =>
          match dget P k with
          | some v => Except.ok (dset acc k v)
          | none => Except.error (PyExc.keyErr k)) acc = .ok D := by
  intro ks
  induction ks with
  | nil => intro _ acc; exact ⟨acc, rfl⟩
  | cons k t ih =>
    intro hall acc
    have hk : hasKey P k = true := hall k (List.mem_cons_self k t)
    rw [hasKey_eq_isSome] at hk
    cases hv : dget P k with
    | none => rw [hv] at hk; exact absurd hk (by simp)
    | some v =>
      obtain ⟨D, hD⟩ := ih (fun j hj => hall j (List.mem_cons_of_mem k hj)) (dset acc k v)
      refine ⟨D, ?_⟩
      rw [selectKeys_step, hv]
      exact hD

theorem selectKeys_congr {P P' : Dict} (h : ∀ k, dget P k = dget P' k) :
    ∀ (ks : List String) (acc : Dict),
      ks.foldlM (fun acc k =>
          match dget P k with
          | some v => Except.ok (dset acc k v)
          | none => Except.error (PyExc.keyErr k)) acc =
      ks.foldlM (fun acc k =>
          match dget P' k with
          | some v => Except.ok (dset acc k v)
          | none => Except.error (PyExc.keyErr k)) acc := by
  intro ks
  induction ks with
  | nil => intro acc; rfl
  | cons k t ih =>
    intro acc
    rw [selectKeys_step, selectKeys_step, ← h k]
    cases dget P k
    · rfl
    · exact ih _

/-! ## Claim theorems about `sign` -/

/-- The resolved `SignatureIndex` values that select the whole payload:
not `False`, and not a truthy (non-empty) string. -/
def signFullIndex (si : JVal) : Prop :=
  si ≠ .jbool false ∧ ∀ s, si = .jstr s → s = ""

theorem sign_jstr (E : Ext) (P M : Dict) (s : String)
    (h : (dget M "SignatureIndex").getD .jnull = .jstr s) :
    sign E P M =
      if s = "" then .ok (some (signData E P M))
      else (selectKeys P (conversionComma s)).bind
        (fun data => .ok (some (signData E data M))) := by
  unfold sign
  rw [h]
  rfl

theorem sign_full_eq (E : Ext) (P M : Dict)
    (h : signFullIndex ((dget M "SignatureIndex").getD .jnull)) :
    sign E P M = .ok (some (signData E P M)) := by
  unfold sign
  cases hsi : (dget M "SignatureIndex").getD .jnull with
  | jnull => rfl
  | jbool b =>
    cases b with
    | false => exact absurd hsi h.1
    | true => rfl
  | jint n => rfl
  | jstr s =>
    have hs : s = "" := h.2 s hsi
    show (if s = "" then Except.ok (some (signData E P M))
        else (selectKeys P (conversionComma s)).bind
          (fun data => Except.ok (some (signData E data M)))) = _
    rw [if_pos hs]
  | jarr es => rfl
  | jobj fs => rfl

/-- **C2.** For payload `P` and metadata `M` (well-formed dicts) where
signing is not skipped, `sign P M` is the digest of the canonical string
built by merging the selected subset of `P` with `M` (metadata wins on
collisions), sorting the merged pairs by key in code-point order, and
concatenating `encoded-key=encoded-value&` for every pair, with a
trailing `&`: when `SignatureIndex` selects the whole payload the subset
is `P` itself, and when it is a truthy comma-separated string the subset
is the dict the selection loop built. -/
theorem sign_eq_digest_of_canonical_string (E : Ext) (P M : Dict)
    (wP : WF P) (wM : WF M) :
    (signFullIndex ((dget M "SignatureIndex").getD .jnull) →
      sign E P M = .ok (some (E.md5 (specCanonicalString P M))))
    ∧ (∀ s D, (dget M "SignatureIndex").getD .jnull = .jstr s → s ≠ "" →
      selectKeys P (conversionComma s) = .ok D →
      sign E P M = .ok (some (E.md5 (specCanonicalString D M)))) := by
  constructor
  · intro h
    rw [sign_full_eq E P M h, signData_eq_spec E wP wM]
  · intro s D hsi hs hsel
    rw [sign_jstr E P M s hsi, if_neg hs, hsel]
    show Except.ok (some (signData E D M)) =
      Except.ok (some (E.md5 (specCanonicalString D M)))
    rw [signData_eq_spec E (WF_selectKeys hsel) wM]

/-- **C4.** `sign` is three-valued on the metadata's `SignatureIndex`:
`False` produces no signature (the `None` result); `None` signs the whole
payload; a truthy comma-separated string restricts signing to exactly the
listed payload keys, every other key of `P` being excluded (the selected
dict looks up exactly the listed keys of `P` and nothing else). -/
theorem sign_signatureIndex_trichotomy (E : Ext) (P M : Dict) :
    ((dget M "SignatureIndex").getD .jnull = .jbool false → sign E P M = .ok none)
    ∧ ((dget M "SignatureIndex").getD .jnull = .jnull →
      sign E P M = .ok (some (signData E P M)))
    ∧ (∀ s, (dget M "SignatureIndex").getD .jnull = .jstr s → s ≠ "" →
      (∀ k ∈ conversionComma s, hasKey P k = true) →
      ∃ D, selectKeys P (conversionComma s) = .ok D ∧
        sign E P M = .ok (some (signData E D M)) ∧
        (∀ j, dget D j = if j ∈ conversionComma s then dget P j else none)) := by
  refine ⟨?_, ?_, ?_⟩
  · intro h
    unfold sign
    rw [h]
  · intro h
    exact sign_full_eq E P M (by rw [h]; exact ⟨fun he => JVal.noConfusion he,
      fun s he => JVal.noConfusion he⟩)
  · intro s hsi hs hall
    obtain ⟨D, hD⟩ := selectKeys_ok_of_mem hall []
    refine ⟨D, hD, ?_, dget_selectKeys hD⟩
    rw [sign_jstr E P M s hsi, if_neg hs,
      show selectKeys P (conversionComma s) = Except.ok D from hD]
    rfl

/-- **C8.** The signature depends only on the key/value association of the
payload, not on its construction or iteration order: two well-formed
payload dicts with identical lookups sign identically against any
metadata. -/
theorem sign_invariant_under_payload_order (E : Ext) (P P' M : Dict)
    (wP : WF P) (wP' : WF P') (h : ∀ k, dget P k = dget P' k) :
    sign E P M = sign E P' M := by
  unfold sign
  cases hsi : (dget M "SignatureIndex").getD .jnull with
  | jbool b =>
    cases b with
    | false => rfl
    | true => exact congrArg (fun x => Except.ok (some x)) (signData_congr E M wP wP' h)
  | jnull => exact congrArg (fun x => Except.ok (some x)) (signData_congr E M wP wP' h)
  | jint n => exact congrArg (fun x => Except.ok (some x)) (signData_congr E M wP wP' h)
  | jarr es => exact congrArg (fun x => Except.ok (some x)) (signData_congr E M wP wP' h)
  | jobj fs => exact congrArg (fun x => Except.ok (some x)) (signData_congr E M wP wP' h)
  | jstr s =>
    show (if s = "" then Except.ok (some (signData E P M))
        else (selectKeys P (conversionComma s)).bind
          (fun data => Except.ok (some (signData E data M)))) =
      (if s = "" then Except.ok (some (signData E P' M))
        else (selectKeys P' (conversionComma s)).bind
          (fun data => Except.ok (some (signData E data M))))
    by_cases he : s = ""
    · rw [if_pos he, if_pos he, signData_congr E M wP wP' h]
    · rw [if_neg he, if_neg he,
        show selectKeys P (conversionComma s) = selectKeys P' (conversionComma s) from
          selectKeys_congr h (conversionComma s) []]

/-! ## Concrete instantiations of the external collaborators -/

/-- A concrete model of the external libraries for exercising theorems on
closed inputs: a tagging digest, a byte-transparent cipher, identity RSA,
and a caller-supplied `json.loads` table. -/
def extDemo (tbl : String → Option JVal) : Ext where
  md5 := fun s => "digest:" ++ s
  cipherEnc := fun _ bs => String.mk (bs.map Char.ofNat)
  cipherDec := fun _ s => s.data.map Char.toNat
  rsaEnc := fun _ s => s
  rsaDec := fun _ s => s
  jsonLoads := tbl

/-- The demo collaborators with an empty `json.loads` table. -/
def extD0 : Ext := extDemo (fun _ => none)

theorem dget_pair_comm (k₁ k₂ : String) (v₁ v₂ : JVal) (hne : k₁ ≠ k₂) (j : String) :
    dget [(k₁, v₁), (k₂, v₂)] j = dget [(k₂, v₂), (k₁, v₁)] j := by
  rw [dget_cons, dget_cons, dget_cons, dget_cons]
  by_cases h1 : k₁ = j
  · rw [if_pos h1, if_neg (fun h2 => hne (h1.trans h2.symm)), if_pos h1]
  · rw [if_neg h1]
    by_cases h2 : k₂ = j
    · rw [if_pos h2, if_pos h2]
    · rw [if_neg h2, if_neg h2, if_neg h1]

/-- Witness for C2 on closed inputs. -/
theorem sign_eq_digest_of_canonical_string_witness :
    sign extD0 [("b", .jint 2), ("a", .jstr "x")] (mkMeta "TS" .jnull) =
      .ok (some (extD0.md5 (specCanonicalString [("b", .jint 2), ("a", .jstr "x")]
        (mkMeta "TS" .jnull)))) ∧
    sign extD0 [("a", .jint 1), ("c", .jint 3)] (mkMeta "TS" (.jstr "a")) =
      .ok (some (extD0.md5 (specCanonicalString [("a", .jint 1)] (mkMeta "TS" (.jstr "a"))))) :=
  ⟨(sign_eq_digest_of_canonical_string extD0 _ _ (by decide) (by decide)).1
      ⟨fun h => JVal.noConfusion h, fun s h => JVal.noConfusion h⟩,
   (sign_eq_digest_of_canonical_string extD0 [("a", .jint 1), ("c", .jint 3)]
      (mkMeta "TS" (.jstr "a")) (by decide) (by decide)).2 "a" [("a", .jint 1)]
      rfl (by decide) rfl⟩

/-- Witness for C4 on closed inputs. -/
theorem sign_signatureIndex_trichotomy_witness :
    sign extD0 [("a", .jint 1)] (mkMeta "TS" (.jbool false)) = .ok none ∧
    sign extD0 [("a", .jint 1)] (mkMeta "TS" .jnull) =
      .ok (some (signData extD0 [("a", .jint 1)] (mkMeta "TS" .jnull))) ∧
    (∃ D, selectKeys [("a", .jint 1), ("b", .jint 2), ("c", .jint 3)]
        (conversionComma "a,b") = .ok D ∧
      sign extD0 [("a", .jint 1), ("b", .jint 2), ("c", .jint 3)]
        (mkMeta "TS" (.jstr "a,b")) = .ok (some (signData extD0 D (mkMeta "TS" (.jstr "a,b")))) ∧
      (∀ j, dget D j = if j ∈ conversionComma "a,b"
        then dget [("a", .jint 1), ("b", .jint 2), ("c", .jint 3)] j else none)) :=
  ⟨(sign_signatureIndex_trichotomy extD0 [("a", .jint 1)] (mkMeta "TS" (.jbool false))).1 rfl,
   (sign_signatureIndex_trichotomy extD0 [("a", .jint 1)] (mkMeta "TS" .jnull)).2.1 rfl,
   (sign_signatureIndex_trichotomy extD0 [("a", .jint 1), ("b", .jint 2), ("c", .jint 3)]
      (mkMeta "TS" (.jstr "a,b"))).2.2 "a,b" rfl (by decide) (by decide)⟩

/-- Witness for C8 on closed inputs. -/
theorem sign_invariant_under_payload_order_witness :
    sign extD0 [("a", .jint 1), ("b", .jint 2)] (mkMeta "TS" .jnull) =
      sign extD0 [("b", .jint 2), ("a", .jint 1)] (mkMeta "TS" .jnull) :=
  sign_invariant_under_payload_order extD0 _ _ _ (by decide) (by decide)
    (dget_pair_comm "a" "b" (.jint 1) (.jint 2) (by decide))

/-! ## C3: the percent-encoding variant -/

/-- The per-byte percent-encoding variant exactly as the specification
words it (a second definition following the spec, for comparison with the
code's `_percent_encode`): `*` is escaped to `%2A`, `~` is left
unescaped, `+` is mapped to `%20`, unreserved bytes stand for themselves,
everything else becomes `%XX`. -/
def specVariantByte (b : Nat) : List Char :=
  if b = 43 then ['%', '2', '0']
  else if b = 42 then ['%', '2', 'A']
  else if unreservedByte b then [Char.ofNat b]
  else ['%', hexU (b / 16), hexU (b % 16)]

/-- The spec's whole encoder: canonical JSON serialization with
recursively sorted keys, then the byte variant above over the UTF-8 bytes. -/
def specPercentEncode (v : JVal) : String :=
  String.mk ((utf8Encode (dumpJVal true ", " ": " v)).flatMap specVariantByte)

/-- The amended per-byte variant: as `specVariantByte` except that `+` is
escaped to `%2B` like any other reserved byte (the code's post-hoc
replacement of `+` by `%20` never fires, because the quoting step leaves
no literal `+`). -/
def specVariantByteB (b : Nat) : List Char :=
  if b = 42 then ['%', '2', 'A']
  else if unreservedByte b then [Char.ofNat b]
  else ['%', hexU (b / 16), hexU (b % 16)]

/-- The amended spec encoder. -/
def specPercentEncodeB (v : JVal) : String :=
  String.mk ((utf8Encode (dumpJVal true ", " ": " v)).flatMap specVariantByteB)

theorem char_toNat_lt (c : Char) : c.toNat < 1114112 := by
  show c.val.toNat < 1114112
  rcases c.valid with h | h
  · omega
  · omega

theorem encCharNat_lt_256 {n : Nat} (hn : n < 1114112) :
    ∀ b ∈ encCharNat n, b < 256 := by
  unfold encCharNat
  split_ifs with h1 h2 h3 <;> intro b hb <;> simp only [List.mem_cons,
    List.mem_singleton, List.not_mem_nil, or_false] at hb
  · omega
  · rcases hb with h | h <;> omega
  · rcases hb with h | h | h <;> omega
  · rcases hb with h | h | h | h <;> omega

theorem utf8Encode_lt_256 (s : String) : ∀ b ∈ utf8Encode s, b < 256 := by
  intro b hb
  unfold utf8Encode at hb
  rw [List.mem_flatMap] at hb
  obtain ⟨c, _, hbc⟩ := hb
  exact encCharNat_lt_256 (char_toNat_lt c) b hbc

theorem flatMap_congr {α β : Type} {f g : α → List β} :
    ∀ l : List α, (∀ a ∈ l, f a = g a) → l.flatMap f = l.flatMap g := by
  intro l
  induction l with
  | nil => intro _; rfl
  | cons a t ih =>
    intro h
    rw [List.flatMap_cons, List.flatMap_cons, h a (List.mem_cons_self a t),
      ih (fun x hx => h x (List.mem_cons_of_mem a hx))]

theorem not_prefix_of_zip_mismatch : ∀ (pat q : List Char),
    ((pat.zip q).any fun pq => !(pq.1 == pq.2)) = true →
    ∀ l, pat.isPrefixOf (q ++ l) = false := by
  intro pat
  induction pat with
  | nil => intro q h l; simp at h
  | cons a pt ih =>
    intro q h l
    cases q with
    | nil => simp at h
    | cons x qt =>
      simp only [List.zip_cons_cons, List.any_cons, Bool.or_eq_true] at h
      show ((a == x) && pt.isPrefixOf (qt ++ l)) = false
      cases hax : a == x with
      | false => simp
      | true =>
        cases h with
        | inl hne => rw [hax] at hne; exact absurd hne (by simp)
        | inr htail => rw [ih qt htail l]; simp

theorem pyReplaceAux_noop (c0 : Char) (ps rep : List Char) :
    ∀ (fuel : Nat) (l : List Char),
      (∀ i, (c0 :: ps).isPrefixOf (l.drop i) = false) →
      pyReplaceAux c0 ps rep fuel l = l := by
  intro fuel
  induction fuel with
  | zero => intro l _; cases l <;> rfl
  | succ f ih =>
    intro l h
    cases l with
    | nil => rfl
    | cons c t =>
      show (if (c0 :: ps).isPrefixOf (c :: t) then _ else _) = _
      have h0 := h 0
      rw [List.drop_zero] at h0
      rw [if_neg (by simp [h0])]
      rw [ih t (fun i => by have hi := h (i + 1); rwa [List.drop_succ_cons] at hi)]

theorem flat_no_occurrence (c0 : Char) (ps : List Char)
    (hz : ∀ b, b < 256 → ∀ i, i < (quotePiece b).length →
      (((c0 :: ps).zip ((quotePiece b).drop i)).any fun pq => !(pq.1 == pq.2)) = true) :
    ∀ bs : List Nat, (∀ b ∈ bs, b < 256) →
      ∀ i, (c0 :: ps).isPrefixOf ((bs.flatMap quotePiece).drop i) = false := by
  intro bs
  induction bs with
  | nil =>
    intro _ i
    simp [List.isPrefixOf]
  | cons b t ih =>
    intro hok i
    rw [List.flatMap_cons, List.drop_append_eq_append_drop]
    by_cases hi : i < (quotePiece b).length
    · exact not_prefix_of_zip_mismatch (c0 :: ps) ((quotePiece b).drop i)
        (hz b (hok b (List.mem_cons_self b t)) i hi) _
    · rw [List.drop_eq_nil_of_le (by omega), List.nil_append]
      exact ih (fun x hx => hok x (List.mem_cons_of_mem b hx)) _

theorem pyReplace_quoteBytes_noop (pat rep : String) (c0 : Char) (ps : List Char)
    (hpd : pat.data = c0 :: ps)
    (hz : ∀ b, b < 256 → ∀ i, i < (quotePiece b).length →
      (((c0 :: ps).zip ((quotePiece b).drop i)).any fun pq => !(pq.1 == pq.2)) = true)
    (bs : List Nat) (hok : ∀ b ∈ bs, b < 256) :
    pyReplace (quoteBytes bs) pat rep = quoteBytes bs := by
  unfold pyReplace
  rw [hpd]
  show String.mk (pyReplaceAux c0 ps rep.data (bs.flatMap quotePiece).length
    (bs.flatMap quotePiece)) = _
  rw [pyReplaceAux_noop c0 ps rep.data _ _ (flat_no_occurrence c0 ps hz bs hok)]
  rfl

set_option maxRecDepth 4000 in
theorem quotePiece_blocks_plus : ∀ b, b < 256 → ∀ i, i < (quotePiece b).length →
    ((['+'].zip ((quotePiece b).drop i)).any fun pq => !(pq.1 == pq.2)) = true := by
  decide

set_option maxRecDepth 4000 in
theorem quotePiece_blocks_star : ∀ b, b < 256 → ∀ i, i < (quotePiece b).length →
    ((['*'].zip ((quotePiece b).drop i)).any fun pq => !(pq.1 == pq.2)) = true := by
  decide

set_option maxRecDepth 4000 in
theorem quotePiece_blocks_tilde : ∀ b, b < 256 → ∀ i, i < (quotePiece b).length →
    ((['%', '7', 'E'].zip ((quotePiece b).drop i)).any fun pq => !(pq.1 == pq.2)) = true := by
  decide

set_option maxRecDepth 4000 in
theorem quotePiece_eq_specB : ∀ b, b < 256 → quotePiece b = specVariantByteB b := by
  decide

theorem percentEncode_eq_quote (v : JVal) :
    percentEncode v = quoteBytes (utf8Encode (dumpJVal true ", " ": " v)) := by
  unfold percentEncode
  rw [pyReplace_quoteBytes_noop "+" "%20" '+' [] rfl quotePiece_blocks_plus _
      (utf8Encode_lt_256 _),
    pyReplace_quoteBytes_noop "*" "%2A" '*' [] rfl quotePiece_blocks_star _
      (utf8Encode_lt_256 _),
    pyReplace_quoteBytes_noop "%7E" "~" '%' ['7', 'E'] rfl quotePiece_blocks_tilde _
      (utf8Encode_lt_256 _)]

/-- **C3 counterexample.** On the one-character string `"+"` the code's
`_percent_encode` and the specification's variant (which maps `+` to
`%20`) disagree: the code produces `%22%2B%22`, the spec `%22%20%22`. -/
theorem percentEncode_plus_ne_spec :
    percentEncode (.jstr "+") = "%22%2B%22" ∧
    specPercentEncode (.jstr "+") = "%22%20%22" ∧
    percentEncode (.jstr "+") ≠ specPercentEncode (.jstr "+") := by
  refine ⟨by decide, by decide, by decide⟩

/-- **C3 (amended).** Every key and value in the canonical signing string
is serialized through canonical JSON with recursively sorted keys and
then percent-encoded with the variant in which `*` is escaped to `%2A`,
`~` is left unescaped, and `+` — like any other reserved byte — is
escaped to `%2B` (the code's replacement of `+` by `%20` never applies,
because percent-encoding leaves no literal `+`); a key `k` is encoded
exactly as the value `jstr k` would be, by the same function. -/
theorem percentEncode_eq_spec_variant (v : JVal) :
    percentEncode v = specPercentEncodeB v := by
  rw [percentEncode_eq_quote]
  unfold specPercentEncodeB quoteBytes
  rw [flatMap_congr (utf8Encode (dumpJVal true ", " ": " v))
    (fun b hb => quotePiece_eq_specB b (utf8Encode_lt_256 _ b hb))]

/-! ## Claims about the AES wrappers -/

theorem except_bind_ok {ε α β : Type} (a : α) (f : α → Except ε β) :
    ((Except.ok a : Except ε α) >>= f) = f a := rfl

/-- **C7.** Whenever the key is text whose length is not a positive
multiple of 16, or the key or the plaintext/ciphertext argument is not
text, both `AESEncrypt` and `AESDecrypt` raise the key-parameter
`AESError` (with its fixed message) and perform no encryption or
decryption. -/
theorem aes_reject_bad_params (E : Ext) (key arg : PyParam)
    (h : (∃ s, key = .ofStr s ∧ ¬(s.length % 16 = 0 ∧ 0 < s.length)) ∨
      key = .nonStr ∨ arg = .nonStr) :
    AESEncrypt E key arg = .error (.aesErr aesMsg) ∧
    AESDecrypt E key arg = .error (.aesErr aesMsg) := by
  have hguard : ∀ (s p : String), key = .ofStr s → arg = .ofStr p →
      ¬(s ≠ "" ∧ s.length % 16 = 0 ∧ p ≠ "") := by
    intro s p hks hap hcl
    rcases h with ⟨s', hs', hbad⟩ | hk | ha
    · rw [hks] at hs'
      cases hs'
      apply hbad
      refine ⟨hcl.2.1, ?_⟩
      cases hl : s.length with
      | zero => exact absurd (String.ext (List.length_eq_zero.mp hl)) hcl.1
      | succ n => omega
    · rw [hks] at hk; exact PyParam.noConfusion hk
    · rw [hap] at ha; exact PyParam.noConfusion ha
  constructor
  · cases key with
    | nonStr => cases arg <;> rfl
    | ofStr s =>
      cases arg with
      | nonStr => rfl
      | ofStr p =>
        show (if s ≠ "" ∧ s.length % 16 = 0 ∧ p ≠ "" then _ else _) = _
        rw [if_neg (hguard s p rfl rfl)]
  · cases key with
    | nonStr => cases arg <;> rfl
    | ofStr s =>
      cases arg with
      | nonStr => rfl
      | ofStr p =>
        show (if s ≠ "" ∧ s.length % 16 = 0 ∧ p ≠ "" then _ else _) = _
        rw [if_neg (hguard s p rfl rfl)]

/-- Witness for C7 on closed inputs: a 3-character key, a non-text key,
and a non-text message. -/
theorem aes_reject_bad_params_witness :
    (AESEncrypt extD0 (.ofStr "123") (.ofStr "hello") = .error (.aesErr aesMsg) ∧
      AESDecrypt extD0 (.ofStr "123") (.ofStr "hello") = .error (.aesErr aesMsg)) ∧
    (AESEncrypt extD0 .nonStr (.ofStr "hello") = .error (.aesErr aesMsg) ∧
      AESDecrypt extD0 .nonStr (.ofStr "hello") = .error (.aesErr aesMsg)) ∧
    (AESEncrypt extD0 (.ofStr "0123456789abcdef") .nonStr = .error (.aesErr aesMsg) ∧
      AESDecrypt extD0 (.ofStr "0123456789abcdef") .nonStr = .error (.aesErr aesMsg)) :=
  ⟨aes_reject_bad_params extD0 _ _ (Or.inl ⟨"123", rfl, by decide⟩),
   aes_reject_bad_params extD0 _ _ (Or.inr (Or.inl rfl)),
   aes_reject_bad_params extD0 _ _ (Or.inr (Or.inr rfl))⟩

/-- **C6.** With well-formed key and ciphertext arguments, `AESDecrypt`
never raises on the decoded content: if the decrypted bytes cannot be
decoded as text it returns the falsy sentinel (`False`, here `none`)
rather than an exception, and if decoding succeeds the control characters
are stripped from the decoded text before it is returned. -/
theorem aesdecrypt_sentinel_or_strip (E : Ext) (k c : String)
    (hk : k ≠ "") (hk16 : k.length % 16 = 0) (hc : c ≠ "") :
    (utf8Dec (E.cipherDec k (c ++ String.mk (List.replicate (c.length % 4) '='))) = none →
      AESDecrypt E (.ofStr k) (.ofStr c) = .ok none)
    ∧ (∀ cs, utf8Dec (E.cipherDec k (c ++ String.mk (List.replicate (c.length % 4) '=')))
        = some cs →
      AESDecrypt E (.ofStr k) (.ofStr c) = .ok (some (stripCtl (String.mk cs)))) := by
  constructor
  · intro hdec
    show (if k ≠ "" ∧ k.length % 16 = 0 ∧ c ≠ "" then _ else _) = _
    rw [if_pos ⟨hk, hk16, hc⟩, hdec]
  · intro cs hdec
    show (if k ≠ "" ∧ k.length % 16 = 0 ∧ c ≠ "" then _ else _) = _
    rw [if_pos ⟨hk, hk16, hc⟩, hdec]

/-- Witness for C6 on closed inputs: under the byte-transparent demo
cipher, a ciphertext carrying byte 255 fails UTF-8 decoding and yields
the sentinel, while an ASCII ciphertext decodes and is stripped. -/
theorem aesdecrypt_sentinel_or_strip_witness :
    AESDecrypt extD0 (.ofStr "0123456789abcdef")
      (.ofStr (String.mk [Char.ofNat 255, Char.ofNat 255, Char.ofNat 255, Char.ofNat 255]))
      = .ok none ∧
    AESDecrypt extD0 (.ofStr "0123456789abcdef") (.ofStr "ab\ncdefg")
      = .ok (some (stripCtl (String.mk "ab\ncdefg".data))) :=
  ⟨(aesdecrypt_sentinel_or_strip extD0 "0123456789abcdef"
      (String.mk [Char.ofNat 255, Char.ofNat 255, Char.ofNat 255, Char.ofNat 255])
      (by decide) (by decide) (by decide)).1 (by decide),
   (aesdecrypt_sentinel_or_strip extD0 "0123456789abcdef" "ab\ncdefg"
      (by decide) (by decide) (by decide)).2 "ab\ncdefg".data (by decide)⟩

/-! ## Claims about the envelope builders -/

/-- **C10.** `clientEncrypt` and `serverEncrypt` reject the empty dict:
for `{}` — which is a mapping — both raise exactly the same
malformed-parameter `TypeError` (same constructor and message) as for a
non-mapping argument (for `serverEncrypt`, once an ephemeral key is
stored, since the key check precedes the payload check). -/
theorem encrypt_rejects_empty_dict (E : Ext) (pub aesKey ts : String) (si : JVal)
    (st : SState) (k : String) (hst : st.AESKey = some k) (hk : k ≠ "") :
    clientEncrypt E pub aesKey ts (.dict []) si = .error (.typeErr "Invalid post data")
    ∧ clientEncrypt E pub aesKey ts .nonDict si = .error (.typeErr "Invalid post data")
    ∧ serverEncrypt E st ts (.dict []) si = .error (.typeErr "Invalid resp data")
    ∧ serverEncrypt E st ts .nonDict si = .error (.typeErr "Invalid resp data") := by
  refine ⟨rfl, rfl, ?_, ?_⟩
  · unfold serverEncrypt
    rw [hst]
    show (if k = "" then _ else _) = _
    rw [if_neg hk]
    rfl
  · unfold serverEncrypt
    rw [hst]
    show (if k = "" then _ else _) = _
    rw [if_neg hk]

/-- Witness for C10 on closed inputs. -/
theorem encrypt_rejects_empty_dict_witness :
    clientEncrypt extD0 "PUB" "0123456789abcdef" "TS" (.dict []) .jnull
      = .error (.typeErr "Invalid post data")
    ∧ clientEncrypt extD0 "PUB" "0123456789abcdef" "TS" .nonDict .jnull
      = .error (.typeErr "Invalid post data")
    ∧ serverEncrypt extD0 ⟨some "0123456789abcdef"⟩ "TS" (.dict []) .jnull
      = .error (.typeErr "Invalid resp data")
    ∧ serverEncrypt extD0 ⟨some "0123456789abcdef"⟩ "TS" .nonDict .jnull
      = .error (.typeErr "Invalid resp data") :=
  encrypt_rejects_empty_dict extD0 "PUB" "0123456789abcdef" "TS" .jnull
    ⟨some "0123456789abcdef"⟩ "0123456789abcdef" rfl (by decide)

/-- **C9.** `serverEncrypt` requires a previously stored ephemeral key:
on the initial state (`AESKey = None`) it fails with the state
`ValueError` for every payload; after a successful `serverDecrypt`, the
state holds exactly the recovered key, and `serverEncrypt` encrypts the
built response payload with that stored key, producing `{data: ct}` with
no asymmetric wrap. -/
theorem serverEncrypt_requires_stored_key (E : Ext) :
    (∀ ts resp si, serverEncrypt E ⟨none⟩ ts resp si = .error (.valueErr "Invalid AESKey"))
    ∧ (∀ priv env D st', serverDecrypt E priv env = (.ok D, st') →
      st'.AESKey = some (E.rsaDec priv env.key)
      ∧ ∀ ts (d pl : Dict) (ct : String),
        d.isEmpty = false →
        buildPayload E ts .jnull d = .ok pl →
        AESEncrypt E (.ofStr (E.rsaDec priv env.key))
            (.ofStr (dumpCompact (.jobj pl))) = .ok ct →
        serverEncrypt E st' ts (.dict d) .jnull = .ok ⟨ct⟩) := by
  constructor
  · intro ts resp si
    cases resp <;> rfl
  · intro priv env D st' h
    have hst : st' = ⟨some (E.rsaDec priv env.key)⟩ := (congrArg Prod.snd h).symm
    refine ⟨by rw [hst], ?_⟩
    intro ts d pl ct hne hpl hct
    have hkne : E.rsaDec priv env.key ≠ "" := by
      intro hemp
      simp only [AESEncrypt] at hct
      rw [if_neg (fun hg => hg.1 hemp)] at hct
      exact Except.noConfusion hct
    rw [hst]
    unfold serverEncrypt
    show (if E.rsaDec priv env.key = "" then _ else _) = _
    rw [if_neg hkne]
    show (if d.isEmpty then _ else _) = _
    rw [hne]
    show (buildPayload E ts JVal.jnull d >>= _) = _
    rw [hpl, except_bind_ok]
    show (AESEncrypt E _ _ >>= _) = _
    rw [hct, except_bind_ok]

/-! ## C5: signature verification on decrypt -/

theorem decryptVerify_eq (E : Ext) (aesKey ct : String)
    (m : String) (D D' M M' : Dict) (sv : JVal) (r : Option String)
    (hdec : AESDecrypt E (.ofStr aesKey) (.ofStr ct) = .ok (some m))
    (hload : E.jsonLoads m = some (.jobj D))
    (hpop1 : dpop D "__meta__" = some (.jobj M, D'))
    (hpop2 : dpop M "Signature" = some (sv, M'))
    (hsig : sign E D' M' = .ok r) :
    decryptVerify E aesKey ct =
      if sigMatches sv r then .ok D'
      else .error (.signErr "Signature verification failed") := by
  unfold decryptVerify
  simp only [hdec, except_bind_ok, hload, hpop1, hpop2, hsig]

/-- **C5.** For envelopes whose decryption chain reaches the signature
comparison, verification in `clientDecrypt` and `serverDecrypt` raises
`SignError` (the signature-mismatch error) exactly when the transmitted
`Signature` value differs (under Python `==`) from the signature
recomputed over the remaining payload and metadata; when they agree, the
payload is returned. -/
theorem decrypt_signError_iff_mismatch (E : Ext) (aesKey ct priv rk : String)
    (m : String) (D D' M M' : Dict) (sv : JVal) (r : Option String)
    (hrsa : E.rsaDec priv rk = aesKey)
    (hdec : AESDecrypt E (.ofStr aesKey) (.ofStr ct) = .ok (some m))
    (hload : E.jsonLoads m = some (.jobj D))
    (hpop1 : dpop D "__meta__" = some (.jobj M, D'))
    (hpop2 : dpop M "Signature" = some (sv, M'))
    (hsig : sign E D' M' = .ok r) :
    (clientDecrypt E aesKey ⟨ct⟩ = .error (.signErr "Signature verification failed") ↔
      sigMatches sv r = false)
    ∧ ((serverDecrypt E priv ⟨rk, ct⟩).1 =
        .error (.signErr "Signature verification failed") ↔ sigMatches sv r = false)
    ∧ (sigMatches sv r = true → clientDecrypt E aesKey ⟨ct⟩ = .ok D'
        ∧ (serverDecrypt E priv ⟨rk, ct⟩).1 = .ok D') := by
  have hcore := decryptVerify_eq E aesKey ct m D D' M M' sv r hdec hload hpop1 hpop2 hsig
  have hclient : clientDecrypt E aesKey ⟨ct⟩ = decryptVerify E aesKey ct := rfl
  have hserver : (serverDecrypt E priv ⟨rk, ct⟩).1 = decryptVerify E aesKey ct := by
    show decryptVerify E (E.rsaDec priv rk) ct = decryptVerify E aesKey ct
    rw [hrsa]
  refine ⟨?_, ?_, ?_⟩
  · rw [hclient, hcore]
    cases hm : sigMatches sv r
    · simp
    · simp
  · rw [hserver, hcore]
    cases hm : sigMatches sv r
    · simp
    · simp
  · intro hm
    rw [hclient, hserver, hcore, hm]
    exact ⟨rfl, rfl⟩

/-! ## Closed decrypt-chain scenarios for the envelope witnesses -/

/-- Payload used in closed decrypt scenarios. -/
def cwD : Dict := [("a", .jint 1)]

/-- The digest the demo collaborators produce for `cwD` under empty
residual metadata. -/
def cwSig : String := "digest:" ++ canonicalize cwD

/-- A decrypted request payload carrying a matching signature. -/
def cwGood : Dict := [("a", .jint 1), ("__meta__", .jobj [("Signature", .jstr cwSig)])]

/-- The same payload with a tampered signature value. -/
def cwBad : Dict :=
  [("a", .jint 1), ("__meta__", .jobj [("Signature", .jstr "digest:WRONG")])]

/-- A `json.loads` table decoding the two scenario ciphertexts. -/
def cwTbl : String → Option JVal := fun s =>
  if s = "gggg" then some (.jobj cwGood)
  else if s = "bbbb" then some (.jobj cwBad)
  else none

/-- Demo collaborators with the scenario table. -/
def cwE : Ext := extDemo cwTbl

/-- Witness for C5 on closed inputs: a tampered signature makes
`serverDecrypt` fail with the signature-mismatch error, the intact one
verifies. -/
theorem decrypt_signError_iff_mismatch_witness :
    (serverDecrypt cwE "PRIV" ⟨"0123456789abcdef", "bbbb"⟩).1
      = .error (.signErr "Signature verification failed")
    ∧ clientDecrypt cwE "0123456789abcdef" ⟨"gggg"⟩ = .ok cwD
    ∧ (serverDecrypt cwE "PRIV" ⟨"0123456789abcdef", "gggg"⟩).1 = .ok cwD :=
  ⟨((decrypt_signError_iff_mismatch cwE "0123456789abcdef" "bbbb" "PRIV"
      "0123456789abcdef" "bbbb" cwBad cwD [("Signature", .jstr "digest:WRONG")] []
      (.jstr "digest:WRONG") (some (signData cwE cwD []))
      rfl rfl rfl rfl rfl rfl).2.1).mpr (by decide),
   (((decrypt_signError_iff_mismatch cwE "0123456789abcdef" "gggg" "PRIV"
      "0123456789abcdef" "gggg" cwGood cwD [("Signature", .jstr cwSig)] []
      (.jstr cwSig) (some (signData cwE cwD []))
      rfl rfl rfl rfl rfl rfl).2.2) (by decide)).1,
   (((decrypt_signError_iff_mismatch cwE "0123456789abcdef" "gggg" "PRIV"
      "0123456789abcdef" "gggg" cwGood cwD [("Signature", .jstr cwSig)] []
      (.jstr cwSig) (some (signData cwE cwD []))
      rfl rfl rfl rfl rfl rfl).2.2) (by decide)).2⟩

/-- The response dict of the C9 closed scenario. -/
def cwResp : Dict := [("status", .jstr "ok")]

/-- The metadata the C9 response build constructs. -/
def cwRMeta : Dict := mkMeta "TS2" .jnull

/-- The response payload `serverEncrypt` serializes in the C9 scenario. -/
def cwRPl : Dict :=
  dset cwResp "__meta__"
    (.jobj (dset cwRMeta "Signature" (.jstr (signData cwE cwResp cwRMeta))))

/-- The ciphertext of the C9 scenario response. -/
def cwRCt : String :=
  cwE.cipherEnc "0123456789abcdef" (utf8Encode (aesPad (dumpCompact (.jobj cwRPl))))

/-- Witness for C9 on closed inputs: the fresh state refuses to encrypt;
after a successful `serverDecrypt` the stored key is the recovered one
and `serverEncrypt` produces `{data: ct}` encrypted under it. -/
theorem serverEncrypt_requires_stored_key_witness :
    serverEncrypt cwE ⟨none⟩ "TS" (.dict [("x", .jint 0)]) .jnull
      = .error (.valueErr "Invalid AESKey")
    ∧ (⟨some "0123456789abcdef"⟩ : SState).AESKey
      = some (cwE.rsaDec "PRIV" (ReqEnv.mk "0123456789abcdef" "gggg").key)
    ∧ serverEncrypt cwE ⟨some "0123456789abcdef"⟩ "TS2" (.dict cwResp) .jnull
      = .ok ⟨cwRCt⟩ :=
  ⟨(serverEncrypt_requires_stored_key cwE).1 "TS" (.dict [("x", .jint 0)]) .jnull,
   ((serverEncrypt_requires_stored_key cwE).2 "PRIV" ⟨"0123456789abcdef", "gggg"⟩
      cwD ⟨some "0123456789abcdef"⟩ rfl).1,
   ((serverEncrypt_requires_stored_key cwE).2 "PRIV" ⟨"0123456789abcdef", "gggg"⟩
      cwD ⟨some "0123456789abcdef"⟩ rfl).2 "TS2" cwResp cwRPl cwRCt rfl rfl rfl⟩

/-! ## Printable-ASCII facts about the serializer -/

/-- Printable ASCII, the range `json.dumps(..., ensure_ascii=True)` emits. -/
abbrev printable (c : Char) : Prop := 32 ≤ c.toNat ∧ c.toNat ≤ 126

theorem printable_digit : ∀ d, d < 10 → printable (Char.ofNat (48 + d)) := by decide

theorem natDigitsAux_printable : ∀ (fuel n : Nat) (acc : List Char),
    (∀ c ∈ acc, printable c) → ∀ c ∈ natDigitsAux fuel n acc, printable c := by
  intro fuel
  induction fuel with
  | zero => intro n acc hacc c hc; exact hacc c hc
  | succ f ih =>
    intro n acc hacc c hc
    unfold natDigitsAux at hc
    by_cases h : n < 10
    · rw [if_pos h] at hc
      cases List.mem_cons.mp hc with
      | inl he => exact he ▸ printable_digit n h
      | inr ht => exact hacc c ht
    · rw [if_neg h] at hc
      refine ih (n / 10) _ ?_ c hc
      intro c' hc'
      cases List.mem_cons.mp hc' with
      | inl he => exact he ▸ printable_digit (n % 10) (Nat.mod_lt n (by omega))
      | inr ht => exact hacc c' ht

theorem natRepr_printable (n : Nat) : ∀ c ∈ (natRepr n).data, printable c :=
  natDigitsAux_printable (n + 1) n [] (by intro c hc; cases hc)

theorem intRepr_printable (n : Int) : ∀ c ∈ (intRepr n).data, printable c := by
  cases n with
  | ofNat m => exact natRepr_printable m
  | negSucc m =>
    intro c hc
    unfold intRepr at hc
    rw [String.data_append] at hc
    cases List.mem_append.mp hc with
    | inl h =>
      have : c = '-' := by
        cases List.mem_cons.mp h with
        | inl he => exact he
        | inr ht => cases ht
      rw [this]; exact (by decide : printable '-')
    | inr h => exact natRepr_printable (m + 1) c h

theorem hexL_printable : ∀ m, m < 16 → printable (hexL m) := by decide

theorem hex4_printable (n : Nat) : ∀ c ∈ hex4 n, printable c := by
  intro c hc
  unfold hex4 at hc
  simp only [List.mem_cons, List.not_mem_nil, or_false] at hc
  rcases hc with h | h | h | h <;> rw [h] <;>
    exact hexL_printable _ (Nat.mod_lt _ (by omega))

theorem escChar_printable (c : Char) : ∀ x ∈ escChar c, printable x := by
  intro x hx
  unfold escChar at hx
  split_ifs at hx with h1 h2 h3 h4 h5 h6 h7 h8 h9
  · simp only [List.mem_cons, List.not_mem_nil, or_false] at hx
    rcases hx with h | h <;> rw [h] <;> decide
  · simp only [List.mem_cons, List.not_mem_nil, or_false] at hx
    rcases hx with h | h <;> rw [h] <;> decide
  · simp only [List.mem_cons, List.not_mem_nil, or_false] at hx
    rcases hx with h | h <;> rw [h] <;> decide
  · simp only [List.mem_cons, List.not_mem_nil, or_false] at hx
    rcases hx with h | h <;> rw [h] <;> decide
  · simp only [List.mem_cons, List.not_mem_nil, or_false] at hx
    rcases hx with h | h <;> rw [h] <;> decide
  · simp only [List.mem_cons, List.not_mem_nil, or_false] at hx
    rcases hx with h | h <;> rw [h] <;> decide
  · simp only [List.mem_cons, List.not_mem_nil, or_false] at hx
    rcases hx with h | h <;> rw [h] <;> decide
  · simp only [List.mem_cons, List.not_mem_nil, or_false] at hx
    rw [hx]
    exact h8
  · simp only [List.mem_cons] at hx
    rcases hx with h | h | h
    · rw [h]; decide
    · rw [h]; decide
    · exact hex4_printable _ x h
  · simp only [List.mem_append, List.mem_cons] at hx
    rcases hx with (h | h | h) | (h | h | h)
    · rw [h]; decide
    · rw [h]; decide
    · exact hex4_printable _ x h
    · rw [h]; decide
    · rw [h]; decide
    · exact hex4_printable _ x h

theorem jstring_printable (s : String) : ∀ c ∈ (jstring s).data, printable c := by
  intro c hc
  unfold jstring at hc
  rw [String.data_append, String.data_append] at hc
  rcases List.mem_append.mp hc with h | h
  · rcases List.mem_append.mp h with h2 | h2
    · have h3 : c ∈ ['"'] := h2
      rw [List.mem_singleton.mp h3]; decide
    · have h3 : c ∈ s.data.flatMap escChar := h2
      rw [List.mem_flatMap] at h3
      obtain ⟨a, _, hx⟩ := h3
      exact escChar_printable a c hx
  · have h3 : c ∈ ['"'] := h
    rw [List.mem_singleton.mp h3]; decide

theorem joinSep_foldl_subset (sep : String) :
    ∀ (t : List String) (acc : String) (c : Char),
      c ∈ (t.foldl (fun acc x => acc ++ sep ++ x) acc).data →
      c ∈ acc.data ∨ c ∈ sep.data ∨ ∃ s ∈ t, c ∈ s.data := by
  intro t
  induction t with
  | nil => intro acc c hc; exact Or.inl hc
  | cons x t' ih =>
    intro acc c hc
    rw [List.foldl_cons] at hc
    rcases ih (acc ++ sep ++ x) c hc with h | h | ⟨s, hs, hcs⟩
    · rw [String.data_append, String.data_append] at h
      simp only [List.mem_append] at h
      rcases h with (h | h) | h
      · exact Or.inl h
      · exact Or.inr (Or.inl h)
      · exact Or.inr (Or.inr ⟨x, List.mem_cons_self x t', h⟩)
    · exact Or.inr (Or.inl h)
    · exact Or.inr (Or.inr ⟨s, List.mem_cons_of_mem x hs, hcs⟩)

theorem joinSep_data_subset (sep : String) (l : List String) (c : Char)
    (hc : c ∈ (joinSep sep l).data) :
    c ∈ sep.data ∨ ∃ s ∈ l, c ∈ s.data := by
  cases l with
  | nil => cases hc
  | cons s t =>
    rcases joinSep_foldl_subset sep t s c hc with h | h | ⟨x, hx, hcx⟩
    · exact Or.inr ⟨s, List.mem_cons_self s t, h⟩
    · exact Or.inl h
    · exact Or.inr ⟨x, List.mem_cons_of_mem s hx, hcx⟩

mutual

theorem dumpJVal_printable (so : Bool) (isep ksep : String)
    (hi : ∀ c ∈ isep.data, printable c) (hk : ∀ c ∈ ksep.data, printable c) :
    ∀ (v : JVal) (c : Char), c ∈ (dumpJVal so isep ksep v).data → printable c
  | .jnull, c, hc => by
    exact (by decide : ∀ c ∈ ("null" : String).data, printable c) c hc
  | .jbool b, c, hc => by
    cases b
    · exact (by decide : ∀ c ∈ ("false" : String).data, printable c) c hc
    · exact (by decide : ∀ c ∈ ("true" : String).data, printable c) c hc
  | .jint n, c, hc => intRepr_printable n c hc
  | .jstr s, c, hc => jstring_printable s c hc
  | .jarr es, c, hc => by
    simp only [dumpJVal] at hc
    rw [String.data_append, String.data_append] at hc
    simp only [List.mem_append] at hc
    rcases hc with (h | h) | h
    · have : c = '[' := by
        cases List.mem_cons.mp h with
        | inl he => exact he
        | inr ht => cases ht
      rw [this]; decide
    · rcases joinSep_data_subset isep _ c h with h2 | ⟨s, hs, hcs⟩
      · exact hi c h2
      · exact dumpArr_printable so isep ksep hi hk es s hs c hcs
    · have : c = ']' := by
        cases List.mem_cons.mp h with
        | inl he => exact he
        | inr ht => cases ht
      rw [this]; decide
  | .jobj fs, c, hc => by
    simp only [dumpJVal] at hc
    rw [String.data_append, String.data_append] at hc
    simp only [List.mem_append] at hc
    rcases hc with (h | h) | h
    · have : c = '\x7b' := by
        cases List.mem_cons.mp h with
        | inl he => exact he
        | inr ht => cases ht
      rw [this]; decide
    · rcases joinSep_data_subset isep _ c h with h2 | ⟨s, hs, hcs⟩
      · exact hi c h2
      · rw [List.mem_map] at hs
        obtain ⟨q, hq, hqe⟩ := hs
        have hq2 : q ∈ dumpFields so isep ksep fs := by
          by_cases hso : so = true
          · subst hso
            rw [if_pos rfl] at hq
            exact (pySorted_perm pairLe (dumpFields true isep ksep fs)).mem_iff.mp hq
          · rw [Bool.not_eq_true] at hso
            subst hso
            rw [if_neg (by decide)] at hq
            exact hq
        rw [← hqe] at hcs
        rw [String.data_append, String.data_append] at hcs
        simp only [List.mem_append] at hcs
        rcases hcs with (h3 | h3) | h3
        · exact jstring_printable q.1 c h3
        · exact hk c h3
        · exact dumpFields_printable so isep ksep hi hk fs q hq2 c h3
    · have : c = '\x7d' := by
        cases List.mem_cons.mp h with
        | inl he => exact he
        | inr ht => cases ht
      rw [this]; decide

theorem dumpArr_printable (so : Bool) (isep ksep : String)
    (hi : ∀ c ∈ isep.data, printable c) (hk : ∀ c ∈ ksep.data, printable c) :
    ∀ (es : List JVal) (s : String), s ∈ dumpArr so isep ksep es →
      ∀ c ∈ s.data, printable c
  | v :: t, s, hs => by
    simp only [dumpArr] at hs
    cases List.mem_cons.mp hs with
    | inl he =>
      intro c hc
      rw [he] at hc
      exact dumpJVal_printable so isep ksep hi hk v c hc
    | inr ht => exact dumpArr_printable so isep ksep hi hk t s ht

theorem dumpFields_printable (so : Bool) (isep ksep : String)
    (hi : ∀ c ∈ isep.data, printable c) (hk : ∀ c ∈ ksep.data, printable c) :
    ∀ (fs : List (String × JVal)) (q : String × String), q ∈ dumpFields so isep ksep fs →
      ∀ c ∈ q.2.data, printable c
  | (k, v) :: t, q, hq => by
    simp only [dumpFields] at hq
    cases List.mem_cons.mp hq with
    | inl he =>
      intro c hc
      rw [he] at hc
      exact dumpJVal_printable so isep ksep hi hk v c hc
    | inr ht => exact dumpFields_printable so isep ksep hi hk t q ht

end

theorem dumpCompact_printable (v : JVal) : ∀ c ∈ (dumpCompact v).data, printable c :=
  dumpJVal_printable false "," ":" (by decide) (by decide) v

/-! ## UTF-8 round trip on ASCII text and control stripping -/

theorem decodeOne_ascii (b : Nat) (hb : b < 128) (t : List Nat) :
    decodeOne b t = some (Char.ofNat b, t) := by
  unfold decodeOne
  rw [if_pos (by omega : b < 0x80)]

theorem utf8DecAux_nil (f : Nat) : utf8DecAux f [] = some [] := by
  cases f <;> rfl

theorem utf8DecAux_ascii : ∀ (l : List Char) (f : Nat), (∀ c ∈ l, c.toNat < 128) →
    (l.flatMap (fun c => encCharNat c.toNat)).length ≤ f →
    utf8DecAux f (l.flatMap (fun c => encCharNat c.toNat)) = some l := by
  intro l
  induction l with
  | nil => intro f _ _; exact utf8DecAux_nil f
  | cons c t ih =>
    intro f h hf
    have hc : c.toNat < 128 := h c (List.mem_cons_self c t)
    have henc : encCharNat c.toNat = [c.toNat] := by
      unfold encCharNat
      rw [if_pos (show c.toNat < 0x80 by omega)]
    rw [List.flatMap_cons, henc, List.singleton_append] at hf ⊢
    rw [List.length_cons] at hf
    cases f with
    | zero => omega
    | succ f' =>
      conv_lhs => rw [utf8DecAux]
      rw [decodeOne_ascii c.toNat hc]
      show (utf8DecAux f' (t.flatMap fun c => encCharNat c.toNat)).map
        (fun cs => Char.ofNat c.toNat :: cs) = _
      rw [ih f' (fun x hx => h x (List.mem_cons_of_mem c hx)) (by omega)]
      show some (Char.ofNat c.toNat :: t) = _
      rw [Char.ofNat_toNat]

theorem ascii_utf8_roundtrip (l : List Char) (h : ∀ c ∈ l, c.toNat < 128) :
    utf8Dec (l.flatMap (fun c => encCharNat c.toNat)) = some l :=
  utf8DecAux_ascii l _ h (Nat.le_refl _)

theorem utf8Encode_data (s : String) :
    utf8Encode s = s.data.flatMap (fun c => encCharNat c.toNat) := rfl

theorem ascii_utf8Encode_length : ∀ l : List Char, (∀ c ∈ l, c.toNat < 128) →
    (l.flatMap (fun c => encCharNat c.toNat)).length = l.length := by
  intro l
  induction l with
  | nil => intro _; rfl
  | cons c t ih =>
    intro h
    rw [List.flatMap_cons, List.length_append,
      show encCharNat c.toNat = [c.toNat] by
        unfold encCharNat; rw [if_pos (h c (List.mem_cons_self c t))],
      ih (fun x hx => h x (List.mem_cons_of_mem c hx))]
    simp only [List.length_cons, List.length_nil]
    omega

theorem printable_not_stripped {c : Char} (h : printable c) : isCtlStrip c = false := by
  obtain ⟨h1, h2⟩ := h
  cases hT : isCtlStrip c with
  | false => rfl
  | true =>
    exfalso
    unfold isCtlStrip at hT
    simp only [Bool.or_eq_true, decide_eq_true_eq, Bool.and_eq_true] at hT
    rcases hT with ((((((h3 | h3) | h3) | ⟨h3, h4⟩) | h3) | h3) | h3) <;> omega

theorem pad_char_stripped : ∀ m, 1 ≤ m → m ≤ 16 → isCtlStrip (Char.ofNat m) = true := by
  decide

theorem stripCtl_printable_append_pad (X : String) (pad : List Char)
    (hX : ∀ c ∈ X.data, printable c) (hpad : ∀ c ∈ pad, isCtlStrip c = true) :
    stripCtl (X ++ String.mk pad) = X := by
  unfold stripCtl
  rw [String.data_append]
  show String.mk (List.filter _ (X.data ++ pad)) = X
  rw [List.filter_append]
  rw [List.filter_eq_self.mpr (fun a ha => by rw [printable_not_stripped (hX a ha)]; rfl)]
  rw [List.filter_eq_nil_iff.mpr (fun a ha => by rw [hpad a ha]; simp)]
  rw [List.append_nil]

/-! ## Padding and dict plumbing for the round trip -/

theorem aesPad_data (s : String) :
    (aesPad s).data = s.data ++ List.replicate (16 - s.length % 16) (Char.ofNat (16 - s.length % 16)) := by
  unfold aesPad
  rw [String.data_append]

theorem aesPad_length (s : String) : (aesPad s).length % 16 = 0 := by
  unfold aesPad
  rw [String.length_append]
  show (s.length + (String.mk (List.replicate (16 - s.length % 16) _)).length) % 16 = 0
  have : (String.mk (List.replicate (16 - s.length % 16) (Char.ofNat (16 - s.length % 16)))).length
      = 16 - s.length % 16 := by
    show (List.replicate _ _).length = _
    rw [List.length_replicate]
  rw [this]
  omega

theorem aesPad_ascii {s : String} (h : ∀ c ∈ s.data, printable c) :
    ∀ c ∈ (aesPad s).data, c.toNat < 128 := by
  intro c hc
  rw [aesPad_data] at hc
  rcases List.mem_append.mp hc with h1 | h1
  · have := h c h1
    omega
  · have he := List.eq_of_mem_replicate h1
    have hlt : 16 - s.length % 16 ≤ 16 := by omega
    have h1le : 1 ≤ 16 - s.length % 16 := by omega
    rw [he]
    revert hlt h1le
    generalize 16 - s.length % 16 = m
    intro hlt h1le
    interval_cases m <;> decide

theorem aesPad_ne_nil (s : String) : (aesPad s).data ≠ [] := by
  rw [aesPad_data]
  intro h
  have := congrArg List.length h
  rw [List.length_append, List.length_replicate] at this
  simp at this
  omega

theorem utf8Encode_ne_nil {s : String} (h : s.data ≠ []) : utf8Encode s ≠ [] := by
  unfold utf8Encode
  cases hd : s.data with
  | nil => exact absurd hd h
  | cons c t =>
    rw [List.flatMap_cons]
    intro he
    have := congrArg List.length he
    rw [List.length_append] at this
    have hne : encCharNat c.toNat ≠ [] := by
      unfold encCharNat
      split_ifs <;> simp
    cases hl : encCharNat c.toNat with
    | nil => exact hne hl
    | cons b bs => rw [hl] at this; simp at this

theorem dset_append_of_not_hasKey {d : Dict} {k : String} (v : JVal)
    (h : hasKey d k = false) : dset d k v = d ++ [(k, v)] := by
  unfold dset
  rw [if_neg (by rw [h]; exact Bool.noConfusion)]

theorem dpop_append_of_not_hasKey {d : Dict} {k : String} (v : JVal)
    (h : hasKey d k = false) : dpop (d ++ [(k, v)]) k = some (v, d) := by
  unfold dpop
  rw [dget_append, dget_eq_none_of_not_hasKey h]
  show (match dget [(k, v)] k with | some v => _ | none => none) = _
  rw [dget_cons, if_pos rfl]
  show some (v, List.eraseP _ (d ++ [(k, v)])) = _
  rw [List.eraseP_append_right _ (fun b hb => by
      intro hbk
      have : hasKey d k = true := by
        rw [hasKey]
        rw [List.find?_isSome]
        exact ⟨b, hb, hbk⟩
      rw [this] at h
      exact Bool.noConfusion h),
    List.eraseP_cons_of_pos (by simp)]
  rw [List.append_nil]

/-! ## The symmetric-cipher round trip -/

theorem AESDecrypt_of_AESEncrypt (E : Ext) (k X : String)
    (hk : k ≠ "") (hk16 : k.length % 16 = 0) (hXne : X ≠ "")
    (hX : ∀ c ∈ X.data, printable c)
    (hcd : E.cipherDec k (E.cipherEnc k (utf8Encode (aesPad X)))
      = utf8Encode (aesPad X))
    (hlen4 : (E.cipherEnc k (utf8Encode (aesPad X))).length % 4 = 0)
    (hcne : E.cipherEnc k (utf8Encode (aesPad X)) ≠ "") :
    AESEncrypt E (.ofStr k) (.ofStr X) = .ok (E.cipherEnc k (utf8Encode (aesPad X)))
    ∧ AESDecrypt E (.ofStr k) (.ofStr (E.cipherEnc k (utf8Encode (aesPad X))))
      = .ok (some X) := by
  constructor
  · show (if k ≠ "" ∧ k.length % 16 = 0 ∧ X ≠ "" then _ else _) = _
    rw [if_pos ⟨hk, hk16, hXne⟩]
  · show (if k ≠ "" ∧ k.length % 16 = 0 ∧ E.cipherEnc k (utf8Encode (aesPad X)) ≠ ""
        then _ else _) = _
    rw [if_pos ⟨hk, hk16, hcne⟩, hlen4]
    show (match utf8Dec (E.cipherDec k (E.cipherEnc k (utf8Encode (aesPad X)) ++
        String.mk (List.replicate 0 '='))) with
      | none => Except.ok none
      | some cs => Except.ok (some (stripCtl (String.mk cs)))) = _
    rw [show E.cipherEnc k (utf8Encode (aesPad X)) ++ String.mk (List.replicate 0 '=')
        = E.cipherEnc k (utf8Encode (aesPad X)) by
      apply String.ext
      rw [String.data_append]
      simp]
    rw [hcd, utf8Encode_data,
      ascii_utf8_roundtrip (aesPad X).data (aesPad_ascii hX)]
    show Except.ok (some (stripCtl (String.mk (aesPad X).data))) = _
    have hmk : String.mk (aesPad X).data = aesPad X := rfl
    rw [hmk,
      show aesPad X = X ++ String.mk (List.replicate (16 - X.length % 16)
        (Char.ofNat (16 - X.length % 16))) from rfl,
      stripCtl_printable_append_pad X _ hX (fun c hc => by
        rw [List.eq_of_mem_replicate hc]
        exact pad_char_stripped _ (by omega) (by omega))]

/-! ## The full four-step exchange (C1) -/

/-- The payload either side serializes and encrypts when `signIndex` is
`None`: the original dict with `__meta__` attached, the metadata carrying
the computed signature. -/
def signedPayload (E : Ext) (ts : String) (d : Dict) : Dict :=
  dset d "__meta__" (.jobj (dset (mkMeta ts .jnull) "Signature"
    (.jstr (signData E d (mkMeta ts .jnull)))))

theorem buildPayload_jnull (E : Ext) (ts : String) (d : Dict) :
    buildPayload E ts .jnull d = .ok (signedPayload E ts d) := by
  unfold buildPayload signedPayload
  show (sign E d (mkMeta ts JVal.jnull) >>= fun sig =>
      Except.ok (dset d "__meta__"
        (JVal.jobj (dset (mkMeta ts JVal.jnull) "Signature" (jvalOfSig sig))))) = _
  rw [sign_full_eq E d (mkMeta ts .jnull)
    ⟨fun h => JVal.noConfusion h, fun s h => JVal.noConfusion h⟩, except_bind_ok]
  rfl

theorem dumpCompact_jobj_ne_empty (fs : List (String × JVal)) :
    dumpCompact (.jobj fs) ≠ "" := by
  unfold dumpCompact
  simp only [dumpJVal]
  intro h
  have h2 := congrArg String.data h
  rw [String.data_append, String.data_append] at h2
  have h3 := congrArg List.length h2
  rw [List.length_append, List.length_append] at h3
  have l1 : ("\x7b" : String).data.length = 1 := rfl
  have l2 : ("\x7d" : String).data.length = 1 := rfl
  have l3 : ("" : String).data.length = 0 := rfl
  rw [l1, l2, l3] at h3
  omega

theorem decryptVerify_of_signedPayload (E : Ext) (aesKey ts : String) (P : Dict)
    (hk : aesKey ≠ "") (hk16 : aesKey.length % 16 = 0)
    (hPm : hasKey P "__meta__" = false)
    (hcd : ∀ bs, (∀ b ∈ bs, b < 256) → E.cipherDec aesKey (E.cipherEnc aesKey bs) = bs)
    (hlen4 : ∀ bs : List Nat, bs.length % 4 = 0 →
      (E.cipherEnc aesKey bs).length % 4 = 0)
    (hcne : ∀ bs, bs ≠ [] → E.cipherEnc aesKey bs ≠ "")
    (hload : E.jsonLoads (dumpCompact (.jobj (signedPayload E ts P)))
      = some (.jobj (signedPayload E ts P))) :
    AESEncrypt E (.ofStr aesKey) (.ofStr (dumpCompact (.jobj (signedPayload E ts P))))
      = .ok (E.cipherEnc aesKey (utf8Encode (aesPad (dumpCompact (.jobj (signedPayload E ts P))))))
    ∧ decryptVerify E aesKey
      (E.cipherEnc aesKey (utf8Encode (aesPad (dumpCompact (.jobj (signedPayload E ts P))))))
      = .ok P := by
  have hX := dumpCompact_printable (.jobj (signedPayload E ts P))
  have hXne := dumpCompact_jobj_ne_empty (signedPayload E ts P)
  have hlen : (utf8Encode (aesPad (dumpCompact (.jobj (signedPayload E ts P))))).length % 4
      = 0 := by
    rw [utf8Encode_data,
      ascii_utf8Encode_length _ (aesPad_ascii hX)]
    have := aesPad_length (dumpCompact (.jobj (signedPayload E ts P)))
    show (aesPad (dumpCompact (.jobj (signedPayload E ts P)))).length % 4 = 0
    omega
  have haes := AESDecrypt_of_AESEncrypt E aesKey
    (dumpCompact (.jobj (signedPayload E ts P))) hk hk16 hXne hX
    (hcd _ (utf8Encode_lt_256 _))
    (hlen4 _ hlen)
    (hcne _ (utf8Encode_ne_nil (aesPad_ne_nil _)))
  refine ⟨haes.1, ?_⟩
  have hpop1 : dpop (signedPayload E ts P) "__meta__" =
      some (.jobj (dset (mkMeta ts .jnull) "Signature"
        (.jstr (signData E P (mkMeta ts .jnull)))), P) := by
    unfold signedPayload
    rw [dset_append_of_not_hasKey _ hPm, dpop_append_of_not_hasKey _ hPm]
  have hmk : hasKey (mkMeta ts .jnull) "Signature" = false := rfl
  have hpop2 : dpop (dset (mkMeta ts .jnull) "Signature"
      (.jstr (signData E P (mkMeta ts .jnull)))) "Signature" =
      some (.jstr (signData E P (mkMeta ts .jnull)), mkMeta ts .jnull) := by
    rw [dset_append_of_not_hasKey _ hmk, dpop_append_of_not_hasKey _ hmk]
  have hsig := sign_full_eq E P (mkMeta ts .jnull)
    ⟨fun h => JVal.noConfusion h, fun s h => JVal.noConfusion h⟩
  rw [decryptVerify_eq E aesKey _ _ _ P _ (mkMeta ts .jnull) _ _
    haes.2 hload hpop1 hpop2 hsig]
  rw [if_pos (by
    show sigMatches (.jstr (signData E P (mkMeta ts .jnull)))
      (some (signData E P (mkMeta ts .jnull))) = true
    show (signData E P (mkMeta ts .jnull) == signData E P (mkMeta ts .jnull)) = true
    exact beq_self_eq_true _)]

/-- **C1.** For every non-empty payload dict `P` (no reserved `__meta__`
key), every response dict `R` likewise, and every matching RSA key pair
and correctly-inverting cipher (stated as laws of the external
collaborators at the values used), the four-step exchange succeeds:
`clientEncrypt` produces an envelope `serverDecrypt` opens back to
exactly `P` (metadata removed), storing the ephemeral key, and
`serverEncrypt`'s response envelope is opened by `clientDecrypt` to
exactly `R` (metadata removed). -/
theorem roundtrip_exchange (E : Ext) (pub priv aesKey ts1 ts2 : String) (P R : Dict)
    (hk : aesKey ≠ "") (hk16 : aesKey.length % 16 = 0)
    (hrsa : E.rsaDec priv (E.rsaEnc pub aesKey) = aesKey)
    (hPne : P.isEmpty = false) (hPm : hasKey P "__meta__" = false)
    (hRne : R.isEmpty = false) (hRm : hasKey R "__meta__" = false)
    (hcd : ∀ bs, (∀ b ∈ bs, b < 256) → E.cipherDec aesKey (E.cipherEnc aesKey bs) = bs)
    (hlen4 : ∀ bs : List Nat, bs.length % 4 = 0 →
      (E.cipherEnc aesKey bs).length % 4 = 0)
    (hcne : ∀ bs, bs ≠ [] → E.cipherEnc aesKey bs ≠ "")
    (hl1 : E.jsonLoads (dumpCompact (.jobj (signedPayload E ts1 P)))
      = some (.jobj (signedPayload E ts1 P)))
    (hl2 : E.jsonLoads (dumpCompact (.jobj (signedPayload E ts2 R)))
      = some (.jobj (signedPayload E ts2 R))) :
    ∃ ct1 ct2,
      clientEncrypt E pub aesKey ts1 (.dict P) .jnull = .ok ⟨E.rsaEnc pub aesKey, ct1⟩
      ∧ serverDecrypt E priv ⟨E.rsaEnc pub aesKey, ct1⟩ = (.ok P, ⟨some aesKey⟩)
      ∧ serverEncrypt E ⟨some aesKey⟩ ts2 (.dict R) .jnull = .ok ⟨ct2⟩
      ∧ clientDecrypt E aesKey ⟨ct2⟩ = .ok R := by
  have hside1 := decryptVerify_of_signedPayload E aesKey ts1 P hk hk16 hPm hcd hlen4 hcne hl1
  have hside2 := decryptVerify_of_signedPayload E aesKey ts2 R hk hk16 hRm hcd hlen4 hcne hl2
  refine ⟨E.cipherEnc aesKey (utf8Encode (aesPad (dumpCompact (.jobj (signedPayload E ts1 P))))),
    E.cipherEnc aesKey (utf8Encode (aesPad (dumpCompact (.jobj (signedPayload E ts2 R))))),
    ?_, ?_, ?_, ?_⟩
  · unfold clientEncrypt
    show (if P.isEmpty then _ else _) = _
    rw [hPne]
    show (buildPayload E ts1 JVal.jnull P >>= _) = _
    rw [buildPayload_jnull, except_bind_ok]
    show (AESEncrypt E _ _ >>= _) = _
    rw [hside1.1, except_bind_ok]
  · show (decryptVerify E (E.rsaDec priv (E.rsaEnc pub aesKey)) _,
      (⟨some (E.rsaDec priv (E.rsaEnc pub aesKey))⟩ : SState)) = _
    rw [hrsa, hside1.2]
  · unfold serverEncrypt
    show (if aesKey = "" then _ else _) = _
    rw [if_neg hk]
    show (if R.isEmpty then _ else _) = _
    rw [hRne]
    show (buildPayload E ts2 JVal.jnull R >>= _) = _
    rw [buildPayload_jnull, except_bind_ok]
    show (AESEncrypt E _ _ >>= _) = _
    rw [hside2.1, except_bind_ok]
  · exact hside2.2

/-! ## Closed instantiation of the round trip -/

set_option maxRecDepth 4000 in
theorem charOfNat_toNat : ∀ b, b < 256 → (Char.ofNat b).toNat = b := by
  decide

theorem extDemo_cipher_dec_enc (tbl : String → Option JVal) (k : String) (bs : List Nat)
    (h : ∀ b ∈ bs, b < 256) :
    (extDemo tbl).cipherDec k ((extDemo tbl).cipherEnc k bs) = bs := by
  show (bs.map Char.ofNat).map Char.toNat = bs
  rw [List.map_map]
  calc List.map (Char.toNat ∘ Char.ofNat) bs
      = List.map id bs := List.map_congr_left (fun b hb => charOfNat_toNat b (h b hb))
    _ = bs := List.map_id bs

theorem extDemo_cipher_len (tbl : String → Option JVal) (k : String) (bs : List Nat) :
    ((extDemo tbl).cipherEnc k bs).length = bs.length := by
  show (bs.map Char.ofNat).length = bs.length
  rw [List.length_map]

theorem extDemo_cipher_ne (tbl : String → Option JVal) (k : String) (bs : List Nat)
    (h : bs ≠ []) : (extDemo tbl).cipherEnc k bs ≠ "" := by
  intro he
  apply h
  have h2 := congrArg (fun s => s.data.length) he
  have h3 : (bs.map Char.ofNat).length = 0 := h2
  rw [List.length_map] at h3
  exact List.eq_nil_of_length_eq_zero h3

/-- The request payload of the closed round-trip scenario. -/
def c1P : Dict := [("action", .jstr "login"), ("user", .jstr "alice")]

/-- The response payload of the closed round-trip scenario. -/
def c1R : Dict := [("status", .jstr "ok")]

/-- The request signature the demo digest produces. -/
def c1Sig1 : String := "digest:" ++ canonicalize (mergeMeta c1P (mkMeta "T1" .jnull))

/-- The response signature the demo digest produces. -/
def c1Sig2 : String := "digest:" ++ canonicalize (mergeMeta c1R (mkMeta "T2" .jnull))

/-- The serialized-and-encrypted request payload. -/
def c1ReqPl : Dict :=
  dset c1P "__meta__" (.jobj (dset (mkMeta "T1" .jnull) "Signature" (.jstr c1Sig1)))

/-- The serialized-and-encrypted response payload. -/
def c1RespPl : Dict :=
  dset c1R "__meta__" (.jobj (dset (mkMeta "T2" .jnull) "Signature" (.jstr c1Sig2)))

/-- A `json.loads` table for exactly the two payload serializations of
the scenario. -/
def c1Tbl : String → Option JVal := fun s =>
  if s = dumpCompact (.jobj c1ReqPl) then some (.jobj c1ReqPl)
  else if s = dumpCompact (.jobj c1RespPl) then some (.jobj c1RespPl)
  else none

/-- The demo collaborators of the closed round-trip scenario. -/
def c1E : Ext := extDemo c1Tbl

set_option maxRecDepth 40000 in
/-- Witness for C1 on closed inputs: the whole four-step exchange on
the login request and ok-status response payloads. -/
theorem roundtrip_exchange_witness :
    ∃ ct1 ct2,
      clientEncrypt c1E "PUB" "0123456789abcdef" "T1" (.dict c1P) .jnull
        = .ok ⟨c1E.rsaEnc "PUB" "0123456789abcdef", ct1⟩
      ∧ serverDecrypt c1E "PRIV" ⟨c1E.rsaEnc "PUB" "0123456789abcdef", ct1⟩
        = (.ok c1P, ⟨some "0123456789abcdef"⟩)
      ∧ serverEncrypt c1E ⟨some "0123456789abcdef"⟩ "T2" (.dict c1R) .jnull = .ok ⟨ct2⟩
      ∧ clientDecrypt c1E "0123456789abcdef" ⟨ct2⟩ = .ok c1R :=
  roundtrip_exchange c1E "PUB" "PRIV" "0123456789abcdef" "T1" "T2" c1P c1R
    (by decide) (by decide) rfl rfl rfl rfl rfl
    (fun bs h => extDemo_cipher_dec_enc c1Tbl "0123456789abcdef" bs h)
    (fun bs h => by
      show ((extDemo c1Tbl).cipherEnc "0123456789abcdef" bs).length % 4 = 0
      rw [extDemo_cipher_len]
      exact h)
    (fun bs h => extDemo_cipher_ne c1Tbl "0123456789abcdef" bs h)
    rfl rfl

end SecureHTTP
